import Mathlib

/-!
Verification of the packing engine of the OpShipping repository
(`OpShipping2.py`).

Dimension triples (Python 3-element lists, held ascending) are modelled by
the structure `Dim3` with integer fields `x`, `y`, `z` standing for indices
0, 1, 2 of the Python list.  Python's negative-index wrap-around on a
3-element list is modelled by indexing with `Fin 3`, whose subtraction is
arithmetic modulo 3.  Functions that can raise (index error on an empty
list, or the `side_1 = None` precondition violation inside `best_fit`)
return `Option`, with `none` standing for the raised exception.  The
`while` loop of `pack_boxes`, which can genuinely diverge, is modelled with
an explicit outer fuel parameter; the inner `for` loop always terminates
and is run with a fuel that is proved sufficient.
-/

namespace OpShipping

/-! ## Definitions: shallow embedding of the packing engine -/

/-- A Python 3-element dimension list `[d0, d1, d2]`. -/
structure Dim3 where
  x : ℤ
  y : ℤ
  z : ℤ
deriving DecidableEq

/-- Indexing `dims[i]` for `i : Fin 3`; Python negative indices are the
same operation after wrap-around, which `Fin 3` subtraction performs. -/
def Dim3.get (d : Dim3) (i : Fin 3) : ℤ :=
  match i with
  | ⟨0, _⟩ => d.x
  | ⟨1, _⟩ => d.y
  | ⟨2, _⟩ => d.z

/-- In-place update `dims[i] = v`. -/
def Dim3.set (d : Dim3) (i : Fin 3) (v : ℤ) : Dim3 :=
  match i with
  | ⟨0, _⟩ => ⟨v, d.y, d.z⟩
  | ⟨1, _⟩ => ⟨d.x, v, d.z⟩
  | ⟨2, _⟩ => ⟨d.x, d.y, v⟩

/-- Python `sorted([a, b, c])` on a 3-element list of integers. -/
def sort3 (a b c : ℤ) : Dim3 :=
  if a ≤ b then
    if b ≤ c then ⟨a, b, c⟩
    else if a ≤ c then ⟨a, c, b⟩
    else ⟨c, a, b⟩
  else
    if a ≤ c then ⟨b, a, c⟩
    else if b ≤ c then ⟨b, c, a⟩
    else ⟨c, b, a⟩

/-- The triple is in ascending order. -/
def sortedAsc (d : Dim3) : Prop := d.x ≤ d.y ∧ d.y ≤ d.z

instance (d : Dim3) : Decidable (sortedAsc d) := by
  unfold sortedAsc; infer_instance

/-- `volume(dimensions)`: the product of the three dimensions
(`reduce` with multiplication over the 3-element list). -/
def volume (d : Dim3) : ℤ := d.x * d.y * d.z

/-- `does_it_fit(item_dims, box_dims)`: `all(box_dim >= item_dim for ... zip ...)`. -/
def does_it_fit (item_dims box_dims : Dim3) : Bool :=
  decide (item_dims.x ≤ box_dims.x) && decide (item_dims.y ≤ box_dims.y) &&
    decide (item_dims.z ≤ box_dims.z)

/-- `_get_side_2_side_3(item_dims, box_dims, side_1)`.  The Python indices
`side_1 - 1`, `side_1 - 2`, `(side_1 + 1) % 3`, `(side_1 + 2) % 3` are all
arithmetic modulo 3 on `Fin 3`. -/
def get_side_2_side_3 (item_dims box_dims : Dim3) (side_1 : Fin 3) : Fin 3 × Fin 3 :=
  if box_dims.get (side_1 - 1) < item_dims.y then (side_1 - 2, side_1 - 1)
  else if box_dims.get (side_1 - 2) < item_dims.y then (side_1 - 1, side_1 - 2)
  else (side_1 + 1, side_1 + 2)

/-- The two side-selection passes of `best_fit`, with the two `for` loops
over the three indices unrolled.  Returns the chosen `side_1`, the list of
blocks emitted so far (`block_1`, when one is emitted), and the possibly
shrunk `box_dims`.  `none` models the `side_1 = None` fall-through, which
makes the Python code raise. -/
def bfSide1 (item_dims box_dims : Dim3) : Option (Fin 3 × List Dim3 × Dim3) :=
  if item_dims.z * 2 ≤ box_dims.x then
    some (0, [sort3 (box_dims.x - item_dims.z) box_dims.z box_dims.y],
      box_dims.set 0 item_dims.z)
  else if box_dims.x = item_dims.z then some (0, [], box_dims)
  else if item_dims.z * 2 ≤ box_dims.y then
    some (1, [sort3 (box_dims.y - item_dims.z) box_dims.x box_dims.z],
      box_dims.set 1 item_dims.z)
  else if box_dims.y = item_dims.z then some (1, [], box_dims)
  else if item_dims.z * 2 ≤ box_dims.z then
    some (2, [sort3 (box_dims.z - item_dims.z) box_dims.y box_dims.x],
      box_dims.set 2 item_dims.z)
  else if box_dims.z = item_dims.z then some (2, [], box_dims)
  else if item_dims.z ≤ box_dims.x then
    some (0, [sort3 (box_dims.x - item_dims.z) item_dims.y item_dims.x], box_dims)
  else if item_dims.z ≤ box_dims.y then
    some (1, [sort3 (box_dims.y - item_dims.z) item_dims.y item_dims.x], box_dims)
  else if item_dims.z ≤ box_dims.z then
    some (2, [sort3 (box_dims.z - item_dims.z) item_dims.y item_dims.x], box_dims)
  else none

/-- Insert a block into a list that is already sorted by ascending volume,
keeping earlier-produced blocks first among equal volumes (Python's
`sorted` is stable). -/
def insertByVolume (b : Dim3) : List Dim3 → List Dim3
  | [] => [b]
  | c :: cs => if volume c < volume b then c :: insertByVolume b cs else b :: c :: cs

/-- Python `sorted(blocks, key=volume)`: a stable sort by ascending volume. -/
def sortByVolume : List Dim3 → List Dim3
  | [] => []
  | b :: bs => insertByVolume b (sortByVolume bs)

/-- The tail of `best_fit` after `side_1` has been selected: the rotation
rule, the two candidate splits, the zero-smallest-dimension filter and the
final sort by volume. -/
def bfRest (item_dims : Dim3) (side_1 : Fin 3) (blocks : List Dim3) (bx : Dim3) :
    List Dim3 :=
  let s := get_side_2_side_3 item_dims bx side_1
  let side_2 := s.1
  let side_3 := s.2
  let block_2a := sort3 (bx.get side_1) (bx.get side_2) (bx.get side_3 - item_dims.x)
  let block_3a := sort3 (bx.get side_1) (bx.get side_2 - item_dims.y) item_dims.x
  let block_2b := sort3 (bx.get side_1) (bx.get side_2 - item_dims.y) (bx.get side_3)
  let block_3b := sort3 (bx.get side_1) (bx.get side_3 - item_dims.x) item_dims.y
  let allBlocks := blocks ++
    (if volume block_2a < volume block_2b then [block_2a, block_3a]
     else [block_2b, block_3b])
  sortByVolume (allBlocks.filter (fun b => b.x != 0))

/-- `best_fit(item_dims, box_dims)`. -/
def best_fit (item_dims box_dims : Dim3) : Option (List Dim3) :=
  match bfSide1 item_dims box_dims with
  | none => none
  | some (side_1, blocks, bx) => some (bfRest item_dims side_1 blocks bx)

/-- `ItemTuple(item_number, dimensions)` from the source; `item[0]` is the
identifier, `item[1]` the (ascending) dimension triple. -/
structure ItemTuple where
  item_number : String
  dimensions : Dim3
deriving DecidableEq

/-- `_something_fits(items, box_dims)`. -/
def something_fits (items : List ItemTuple) (box_dims : Dim3) : Bool :=
  items.any (fun it => does_it_fit it.dimensions box_dims)

/-- `items_packed[-1].append(item)`: append to the last parcel; `none`
models the `IndexError` on an empty list of parcels. -/
def append_to_last (items_packed : List (List ItemTuple)) (item : ItemTuple) :
    Option (List (List ItemTuple)) :=
  match items_packed.getLast? with
  | none => none
  | some last => some (items_packed.dropLast ++ [last ++ [item]])

/-- `insert_items_into_dimensions(remaining_dimensions, items_to_pack,
items_packed)`: takes the front block, places the first pending item that
fits (if any) into the last parcel, removes it from the pending list,
splits the block with `best_fit` and appends each leftover block that still
fits some pending item, then pops the front block.  `none` models the
exceptions (front of an empty list, or `best_fit` raising). -/
def insert_items_into_dimensions (remaining_dimensions : List Dim3)
    (items_to_pack : List ItemTuple) (items_packed : List (List ItemTuple)) :
    Option (List Dim3 × List ItemTuple × List (List ItemTuple)) :=
  match remaining_dimensions with
  | [] => none
  | block :: rest =>
    match items_to_pack.find? (fun it => does_it_fit it.dimensions block) with
    | none => some (rest, items_to_pack, items_packed)
    | some item =>
      match append_to_last items_packed item with
      | none => none
      | some packed' =>
        let items' := items_to_pack.erase item
        match best_fit item.dimensions block with
        | none => none
        | some left_over_dimensions =>
          some (rest ++ left_over_dimensions.filter (fun b => something_fits items' b),
            items', packed')

/-- The `for block in remaining_dimensions` loop of `pack_boxes`.  A Python
`for` over a list mutated in place advances an index `j` and stops as soon
as `j` is no longer below the current length.  The fuel argument is an
upper bound on the number of iterations; `packLoop` supplies
`remaining.length + 4 * copy.length`, which is proved sufficient below
(each iteration pops one block and appends at most 3, and appends only
when it also consumes an item). -/
def innerLoopF : ℕ → ℕ → List Dim3 → List ItemTuple → List (List ItemTuple) →
    Option (List Dim3 × List ItemTuple × List (List ItemTuple))
  | 0, j, remaining, copy, packed =>
    if j < remaining.length then none else some (remaining, copy, packed)
  | fuel + 1, j, remaining, copy, packed =>
    if j < remaining.length then
      match insert_items_into_dimensions remaining copy packed with
      | none => none
      | some (r', c', p') => innerLoopF fuel (j + 1) r' c' p'
    else some (remaining, copy, packed)

/-- The `while len(items_to_pack_copy) > 0` loop of `pack_boxes`.  The
outer fuel bounds the number of `while` iterations; the loop genuinely
diverges on items that fit no box, so the fuel is essential. -/
def packLoop (box_dimensions : Dim3) :
    ℕ → List Dim3 → List ItemTuple → List (List ItemTuple) →
    Option (List (List ItemTuple))
  | 0, _, _, _ => none
  | fuel + 1, remaining_dimensions, items_to_pack_copy, items_packed =>
    if items_to_pack_copy = [] then some items_packed
    else
      let r := if remaining_dimensions = [] then [box_dimensions]
        else remaining_dimensions
      let p := if remaining_dimensions = [] then items_packed ++ [[]]
        else items_packed
      match innerLoopF (r.length + 4 * items_to_pack_copy.length) 0 r
          items_to_pack_copy p with
      | none => none
      | some (r', c', p') => packLoop box_dimensions fuel r' c' p'

/-- `pack_boxes(box_dimensions, items_to_pack)`, with fuel for the while
loop.  The copy `items_to_pack_copy = list(items_to_pack)` is the value
passed along; `remaining_dimensions` and `items_packed` start empty. -/
def pack_boxes (fuel : ℕ) (box_dimensions : Dim3)
    (items_to_pack : List ItemTuple) : Option (List (List ItemTuple)) :=
  packLoop box_dimensions fuel [] items_to_pack []

/-- `pack_boxes` terminates on the given input (the Python while loop
finishes and the function returns). -/
def PackTerminates (box_dimensions : Dim3) (items_to_pack : List ItemTuple) :
    Prop :=
  ∃ fuel, (pack_boxes fuel box_dimensions items_to_pack).isSome

/-- One step of `sorted(item_list, key=lambda item: item.dimensions[2],
reverse=True)`: insert an item into an already descending-sorted list,
before the first element with a strictly smaller key (Python's sort is
stable, and `reverse=True` keeps the original order of equal keys). -/
def insertDescZ (it : ItemTuple) : List ItemTuple → List ItemTuple
  | [] => [it]
  | j :: js =>
    if it.dimensions.z < j.dimensions.z then j :: insertDescZ it js
    else it :: j :: js

/-- `sorted(item_list, key=lambda item: item.dimensions[2], reverse=True)`. -/
def sortItemsDesc : List ItemTuple → List ItemTuple
  | [] => []
  | it :: rest => insertDescZ it (sortItemsDesc rest)

/-- The running total `total_item_volume` accumulated over `item_list`. -/
def total_item_volume (item_list : List ItemTuple) : ℤ :=
  (item_list.map (fun it =>
    it.dimensions.x * it.dimensions.y * it.dimensions.z)).sum

/-- The `can_use_box` feasibility check: every item passes the dominance
test against the box type's dimensions. -/
def can_use_box (item_list : List ItemTuple) (dims : Dim3) : Bool :=
  item_list.all (fun it => does_it_fit it.dimensions dims)

/-- The largest finite IEEE-754 binary64 value (an integer); the powers
are taken in `ℕ`, whose `pow` evaluates on literals by kernel
acceleration. -/
def maxFiniteDouble : ℤ := ((2 ^ 1024 - 2 ^ 971 : ℕ) : ℤ)

/-- Number of binary digits of `n` (`0` for `n = 0`), computed with a
structural fuel so that it evaluates by kernel reduction. -/
def bitLengthAux : ℕ → ℕ → ℕ
  | 0, _ => 0
  | fuel + 1, n => if n = 0 then 0 else bitLengthAux fuel (n / 2) + 1

def bitLength (n : ℕ) : ℕ := bitLengthAux n n

/-- Round a nonnegative integer to 53 significant bits (the binary64
significand width), ties to even.  Exact for inputs below `2^53`. -/
def roundPos53 (n : ℤ) : ℤ :=
  let bits := bitLength n.toNat
  if bits ≤ 53 then n
  else
    let p : ℤ := ((2 ^ (bits - 53) : ℕ) : ℤ)
    let q := n / p
    let r := n % p
    if r * 2 > p ∨ (r * 2 = p ∧ q % 2 = 1) then (q + 1) * p else q * p

/-- Round an integer to the binary64 significand grid (round to nearest,
ties to even), without the exponent-range check. -/
def round53 (n : ℤ) : ℤ := if n < 0 then - roundPos53 (-n) else roundPos53 n

/-- An IEEE-754 binary64 value as `handle_order` can produce it.  Every
float that function computes is the conversion of an integer or a product
of such conversions, so every finite value it ever holds is an exact
integer, carried here as such.  The sign of a zero is immaterial for the
multiplications and `<` comparisons performed and is not tracked. -/
inductive PyFloat where
  | finite (v : ℤ)
  | inf (neg : Bool)
  | nan
deriving DecidableEq

/-- The binary64 result of an exact integer value: round to nearest, ties
to even, overflowing to an infinity. -/
def froundInt (n : ℤ) : PyFloat :=
  let r := round53 n
  if r > maxFiniteDouble then .inf false
  else if r < - maxFiniteDouble then .inf true
  else .finite r

/-- `float(n)` on a Python int: round half to even; `OverflowError`
(modelled `none`) when the rounded value exceeds the largest finite
double.  The same conversion happens when an int meets a float under
`*`. -/
def float_of_int (n : ℤ) : Option PyFloat :=
  match froundInt n with
  | .finite v => some (.finite v)
  | _ => none

/-- Binary64 multiplication on the values the program produces: rounding
with overflow to infinity, sign rules for infinities, `inf * 0 = nan`,
`nan` absorbing. -/
def PyFloat.mul : PyFloat → PyFloat → PyFloat
  | .nan, _ => .nan
  | _, .nan => .nan
  | .inf s, .inf t => .inf (s != t)
  | .inf s, .finite v => if v = 0 then .nan else .inf (s != decide (v < 0))
  | .finite v, .inf s => if v = 0 then .nan else .inf (s != decide (v < 0))
  | .finite a, .finite b => froundInt (a * b)

/-- Binary64 `<`: `nan` compares false against everything; finite values
compare by their exact integer value. -/
def PyFloat.lt : PyFloat → PyFloat → Bool
  | .nan, _ => false
  | _, .nan => false
  | .inf s, .inf t => s && !t
  | .inf s, .finite _ => s
  | .finite _, .inf t => !t
  | .finite a, .finite b => decide (a < b)

/-- The value of the variable `best_total_volume`: the Python int `0` it
is initialised with, until the first feasible box type overwrites it with
a float. -/
inductive PyNumber where
  | int (n : ℤ)
  | float (f : PyFloat)
deriving DecidableEq

/-- `float(length) * float(width) * float(height)` for a box type, in
binary64 and left associated as the source writes it; `none` when one of
the three `float(...)` conversions raises `OverflowError`. -/
def box_float_volume (dims : Dim3) : Option PyFloat :=
  match float_of_int dims.x, float_of_int dims.y, float_of_int dims.z with
  | some fl, some fw, some fh => some ((fl.mul fw).mul fh)
  | _, _, _ => none

/-- `total_volume = len(packed_items) * (float(length) * float(width) *
float(height))` for one feasible box type: the float total consumed
volume of the packing run, computed exactly as the source does in IEEE-754
binary64 (the int operand `len(packed_items)` is converted to a double by
`float.__rmul__`).  `none` when the run does not terminate within the
fuel or a conversion raises `OverflowError`. -/
def consumed_volume (fuel : ℕ) (item_list : List ItemTuple)
    (b : String × Dim3) : Option PyFloat :=
  match pack_boxes fuel b.2 (sortItemsDesc item_list) with
  | none => none
  | some packed_items =>
    match box_float_volume b.2, float_of_int (packed_items.length : ℤ) with
    | some pv, some flen => some (flen.mul pv)
    | _, _ => none

/-- The `for i in range(0, len(box_list))` loop of `handle_order`,
carrying the best candidate found so far
(`best_box`, `best_parsed`, `best_total_volume`); the accumulator's
volume slot is a float from the first update on.  `none` models an
uncaught exception (the packing run diverging, or `OverflowError` from a
`float(...)` conversion). -/
def handleLoop (fuel : ℕ) (item_list items_to_pack : List ItemTuple) :
    List (String × Dim3) → Option (String × List (List String) × PyFloat) →
    Option (Option String × Option (List (List String)) × PyNumber)
  | [], best =>
    match best with
    | none => some (none, none, .int 0)
    | some (bn, bp, bv) => some (some bn, some bp, .float bv)
  | (nm, dims) :: rest, best =>
    if can_use_box item_list dims then
      match pack_boxes fuel dims items_to_pack with
      | none => none
      | some packed_items =>
        match box_float_volume dims, float_of_int (packed_items.length : ℤ) with
        | some pv, some flen =>
          let total_volume := flen.mul pv
          let parsed := packed_items.map (fun bx => bx.map (fun t => t.item_number))
          let new_best :=
            match best with
            | none => some (nm, parsed, total_volume)
            | some (bn, bp, bv) =>
              if PyFloat.lt total_volume bv then some (nm, parsed, total_volume)
              else some (bn, bp, bv)
          handleLoop fuel item_list items_to_pack rest new_best
        | _, _ => none
    else handleLoop fuel item_list items_to_pack rest best

/-- `handle_order(item_list, box_list)`: sorts the items by descending
longest dimension, tries every feasible box type, and returns
`(best_box, best_parsed, best_total_volume, total_item_volume)`, with
`none` as the sentinel when no box type is feasible (then
`best_total_volume` is still the int `0`). -/
def handle_order (fuel : ℕ) (item_list : List ItemTuple)
    (box_list : List (String × Dim3)) :
    Option (Option String × Option (List (List String)) × PyNumber × ℤ) :=
  match handleLoop fuel item_list (sortItemsDesc item_list) box_list none with
  | none => none
  | some (b, pr, v) => some (b, pr, v, total_item_volume item_list)

/-- The accumulator of `handleLoop` summarises a processed prefix `pre` of
the catalog: `none` iff no prefix box type was feasible, otherwise the
name and (finite) float consumed volume of the first prefix box type
attaining the minimum float consumed volume among feasible ones.  The
finiteness of all stored and compared volumes is part of the invariant. -/
def bestInv (fuel : ℕ) (item_list : List ItemTuple)
    (pre : List (String × Dim3))
    (best : Option (String × List (List String) × PyFloat)) : Prop :=
  match best with
  | none => ∀ b ∈ pre, can_use_box item_list b.2 = false
  | some (bn, _, bv) =>
      ∃ i, ∃ hi : i < pre.length, ∃ vi : ℤ,
        can_use_box item_list (pre[i]).2 = true ∧
        bn = (pre[i]).1 ∧ bv = PyFloat.finite vi ∧
        consumed_volume fuel item_list (pre[i]) = some (PyFloat.finite vi) ∧
        (∀ j, ∀ hj : j < pre.length,
          can_use_box item_list (pre[j]).2 = true →
          ∃ vj, consumed_volume fuel item_list (pre[j]) = some (PyFloat.finite vj) ∧
            vi ≤ vj) ∧
        (∀ j, ∀ hj : j < pre.length, j < i →
          can_use_box item_list (pre[j]).2 = true →
          ∃ vj, consumed_volume fuel item_list (pre[j]) = some (PyFloat.finite vj) ∧
            vi < vj)

/-- Result form of the invariant, for the value `handleLoop` returns when
the catalog is exhausted. -/
def bestInvRes (fuel : ℕ) (item_list : List ItemTuple)
    (l : List (String × Dim3))
    (res : Option String × Option (List (List String)) × PyNumber) : Prop :=
  match res.1 with
  | none => ∀ b ∈ l, can_use_box item_list b.2 = false
  | some bn =>
      ∃ i, ∃ hi : i < l.length, ∃ vi : ℤ,
        can_use_box item_list (l[i]).2 = true ∧
        bn = (l[i]).1 ∧ res.2.2 = PyNumber.float (PyFloat.finite vi) ∧
        consumed_volume fuel item_list (l[i]) = some (PyFloat.finite vi) ∧
        (∀ j, ∀ hj : j < l.length,
          can_use_box item_list (l[j]).2 = true →
          ∃ vj, consumed_volume fuel item_list (l[j]) = some (PyFloat.finite vj) ∧
            vi ≤ vj) ∧
        (∀ j, ∀ hj : j < l.length, j < i →
          can_use_box item_list (l[j]).2 = true →
          ∃ vj, consumed_volume fuel item_list (l[j]) = some (PyFloat.finite vj) ∧
            vi < vj)

/-! ## Theorems -/

@[simp] theorem get_zero (d : Dim3) : d.get 0 = d.x := rfl

@[simp] theorem get_one (d : Dim3) : d.get 1 = d.y := rfl

@[simp] theorem get_two (d : Dim3) : d.get 2 = d.z := rfl

theorem does_it_fit_iff (a b : Dim3) :
    does_it_fit a b = true ↔ a.x ≤ b.x ∧ a.y ≤ b.y ∧ a.z ≤ b.z := by
  simp [does_it_fit, and_assoc]

theorem volume_sort3 (a b c : ℤ) : volume (sort3 a b c) = a * b * c := by
  unfold sort3 volume
  split_ifs <;> dsimp only <;> ring

theorem sort3_sortedAsc (a b c : ℤ) : sortedAsc (sort3 a b c) := by
  unfold sort3 sortedAsc
  split_ifs <;> dsimp only <;> omega

theorem sort3_x_nonneg (a b c : ℤ) (ha : 0 ≤ a) (hb : 0 ≤ b) (hc : 0 ≤ c) :
    0 ≤ (sort3 a b c).x := by
  unfold sort3
  split_ifs <;> dsimp only <;> assumption

theorem sumVol_filter (l : List Dim3) :
    ((l.filter (fun b => b.x != 0)).map volume).sum = (l.map volume).sum := by
  induction l with
  | nil => rfl
  | cons b bs ih =>
    by_cases h : b.x = 0
    · have hv : volume b = 0 := by simp [volume, h]
      simp [List.filter_cons, h, hv, ih]
    · simp [List.filter_cons, h, ih]

theorem insertByVolume_perm (b : Dim3) (l : List Dim3) :
    (insertByVolume b l).Perm (b :: l) := by
  induction l with
  | nil => simp [insertByVolume]
  | cons c cs ih =>
    unfold insertByVolume
    split_ifs
    · exact (ih.cons c).trans (List.Perm.swap b c cs)
    · exact List.Perm.refl _

theorem sortByVolume_perm (l : List Dim3) : (sortByVolume l).Perm l := by
  induction l with
  | nil => exact List.Perm.refl _
  | cons b bs ih => exact (insertByVolume_perm b (sortByVolume bs)).trans (ih.cons b)

theorem sumVol_sortByVolume (l : List Dim3) :
    ((sortByVolume l).map volume).sum = (l.map volume).sum :=
  ((sortByVolume_perm l).map volume).sum_eq

theorem sortByVolume_length (l : List Dim3) :
    (sortByVolume l).length = l.length :=
  (sortByVolume_perm l).length_eq

theorem mem_sortByVolume {b : Dim3} {l : List Dim3} :
    b ∈ sortByVolume l ↔ b ∈ l :=
  (sortByVolume_perm l).mem_iff

theorem insertByVolume_pairwise (b : Dim3) (l : List Dim3)
    (h : l.Pairwise (fun a c => volume a ≤ volume c)) :
    (insertByVolume b l).Pairwise (fun a c => volume a ≤ volume c) := by
  induction l with
  | nil => simp [insertByVolume]
  | cons c cs ih =>
    rw [List.pairwise_cons] at h
    unfold insertByVolume
    split_ifs with hv
    · rw [List.pairwise_cons]
      refine ⟨?_, ih h.2⟩
      intro a ha
      rcases List.mem_cons.mp (((insertByVolume_perm b cs).mem_iff).mp ha) with h' | h'
      · subst h'; exact le_of_lt hv
      · exact h.1 a h'
    · rw [List.pairwise_cons]
      refine ⟨?_, List.pairwise_cons.mpr h⟩
      intro a ha
      rcases List.mem_cons.mp ha with h' | h'
      · subst h'; exact le_of_not_lt hv
      · exact le_trans (le_of_not_lt hv) (h.1 a h')

theorem sortByVolume_pairwise (l : List Dim3) :
    (sortByVolume l).Pairwise (fun a c => volume a ≤ volume c) := by
  induction l with
  | nil => simp [sortByVolume]
  | cons b bs ih => exact insertByVolume_pairwise b (sortByVolume bs) ih

/-- Fin-3 wrap-around constants, so that `simp` can evaluate the index
arithmetic of `get_side_2_side_3`. -/
@[simp] theorem fin3_zero_sub_one : (0 : Fin 3) - 1 = 2 := rfl

@[simp] theorem fin3_zero_sub_two : (0 : Fin 3) - 2 = 1 := rfl

@[simp] theorem fin3_one_sub_one : (1 : Fin 3) - 1 = 0 := rfl

@[simp] theorem fin3_one_sub_two : (1 : Fin 3) - 2 = 2 := rfl

@[simp] theorem fin3_two_sub_one : (2 : Fin 3) - 1 = 1 := rfl

@[simp] theorem fin3_two_sub_two : (2 : Fin 3) - 2 = 0 := rfl

@[simp] theorem fin3_zero_add_one : (0 : Fin 3) + 1 = 1 := rfl

@[simp] theorem fin3_zero_add_two : (0 : Fin 3) + 2 = 2 := rfl

@[simp] theorem fin3_one_add_one : (1 : Fin 3) + 1 = 2 := rfl

@[simp] theorem fin3_one_add_two : (1 : Fin 3) + 2 = 0 := rfl

@[simp] theorem fin3_two_add_one : (2 : Fin 3) + 1 = 0 := rfl

@[simp] theorem fin3_two_add_two : (2 : Fin 3) + 2 = 1 := rfl

@[simp] theorem fin3_neg_one : (-1 : Fin 3) = 2 := rfl

@[simp] theorem fin3_neg_two : (-2 : Fin 3) = 1 := rfl

theorem fin3_cases : ∀ i : Fin 3, i = 0 ∨ i = 1 ∨ i = 2 := by decide

theorem bfRest_sumVol (item_dims : Dim3) (side_1 : Fin 3) (blocks : List Dim3)
    (bx : Dim3) :
    ((bfRest item_dims side_1 blocks bx).map volume).sum =
      (blocks.map volume).sum +
        (bx.x * bx.y * bx.z - bx.get side_1 * item_dims.x * item_dims.y) := by
  rcases fin3_cases side_1 with rfl | rfl | rfl <;>
    (simp only [bfRest, get_side_2_side_3, sumVol_sortByVolume, sumVol_filter,
       fin3_zero_sub_one, fin3_zero_sub_two, fin3_one_sub_one, fin3_one_sub_two,
       fin3_two_sub_one, fin3_two_sub_two, fin3_zero_add_one, fin3_zero_add_two,
       fin3_one_add_one, fin3_one_add_two, fin3_two_add_one, fin3_two_add_two,
       get_zero, get_one, get_two]
     split_ifs <;>
       (dsimp only
        simp only [List.map_append, List.map_cons, List.map_nil, List.sum_append,
          List.sum_cons, List.sum_nil, add_zero, volume_sort3,
          get_zero, get_one, get_two]
        ring))

theorem bfSide1_isSome (item_dims box_dims : Dim3)
    (h : item_dims.z ≤ box_dims.z) :
    (bfSide1 item_dims box_dims).isSome := by
  unfold bfSide1
  split_ifs <;> simp_all

/-- The exact conservation identity behind the spec's volume-bound claim. -/
theorem best_fit_sum_eq (item_dims box_dims : Dim3)
    (h : item_dims.z ≤ box_dims.z) :
    ∃ l, best_fit item_dims box_dims = some l ∧
      volume item_dims + (l.map volume).sum = volume box_dims := by
  unfold best_fit
  cases hs : bfSide1 item_dims box_dims with
  | none =>
    exact absurd (bfSide1_isSome item_dims box_dims h) (by simp [hs])
  | some t =>
    obtain ⟨s1, blocks, bx⟩ := t
    refine ⟨_, rfl, ?_⟩
    rw [bfRest_sumVol]
    unfold bfSide1 at hs
    split_ifs at hs with h1 h2 h3 h4 h5 h6 h7 h8 h9
    all_goals
      (simp only [Option.some.injEq, Prod.mk.injEq] at hs
       obtain ⟨hA, hB, hC⟩ := hs
       subst hA; subst hB; subst hC
       simp only [List.map_cons, List.map_nil, List.sum_cons, List.sum_nil,
         add_zero, volume_sort3, Dim3.set, get_zero, get_one, get_two]
       simp only [volume]
       first
       | ring1
       | (rw [h2]; ring1)
       | (rw [h4]; ring1)
       | (rw [h6]; ring1))

theorem sort3_ok (a b c : ℤ) (ha : 0 ≤ a) (hb : 0 ≤ b) (hc : 0 ≤ c) :
    sortedAsc (sort3 a b c) ∧ 0 ≤ (sort3 a b c).x :=
  ⟨sort3_sortedAsc a b c, sort3_x_nonneg a b c ha hb hc⟩

theorem volume_pos_of_sorted (b : Dim3) (hs : sortedAsc b) (hx : 0 < b.x) :
    0 < volume b :=
  mul_pos (mul_pos hx (lt_of_lt_of_le hx hs.1))
    (lt_of_lt_of_le hx (le_trans hs.1 hs.2))

/-- Post-processing of `best_fit`: filtering out zero-smallest-dimension
blocks from a list of ascending blocks with nonnegative smallest dimension,
then sorting by volume, yields at most as many blocks, all strictly
positive, ordered by ascending volume. -/
theorem post_glue (L : List Dim3) (hlen : L.length ≤ 3)
    (hL : ∀ b ∈ L, sortedAsc b ∧ 0 ≤ b.x) :
    (sortByVolume (L.filter (fun b => b.x != 0))).length ≤ 3 ∧
    (∀ b ∈ sortByVolume (L.filter (fun b => b.x != 0)),
      sortedAsc b ∧ 0 < b.x ∧ 0 < volume b) ∧
    (sortByVolume (L.filter (fun b => b.x != 0))).Pairwise
      (fun a c => volume a ≤ volume c) := by
  refine ⟨?_, ?_, sortByVolume_pairwise _⟩
  · calc (sortByVolume (L.filter (fun b => b.x != 0))).length
        = (L.filter (fun b => b.x != 0)).length := sortByVolume_length _
      _ ≤ L.length := List.length_filter_le _ _
      _ ≤ 3 := hlen
  · intro b hb
    rw [mem_sortByVolume] at hb
    obtain ⟨hmem, hne⟩ := List.mem_filter.mp hb
    obtain ⟨hsorted, hnn⟩ := hL b hmem
    have hne' : b.x ≠ 0 := by simpa using hne
    have hxpos : 0 < b.x := lt_of_le_of_ne hnn (Ne.symm hne')
    exact ⟨hsorted, hxpos, volume_pos_of_sorted b hsorted hxpos⟩

set_option maxHeartbeats 1600000 in
theorem best_fit_output_props (item_dims box_dims : Dim3)
    (hi : sortedAsc item_dims) (hb : sortedAsc box_dims)
    (hpi : 0 < item_dims.x) (hpb : 0 < box_dims.x)
    (hfit : does_it_fit item_dims box_dims = true) :
    ∃ l, best_fit item_dims box_dims = some l ∧ l.length ≤ 3 ∧
      (∀ b ∈ l, sortedAsc b ∧ 0 < b.x ∧ 0 < volume b) ∧
      l.Pairwise (fun a c => volume a ≤ volume c) := by
  obtain ⟨hixy, hiyz⟩ := hi
  obtain ⟨hbxy, hbyz⟩ := hb
  obtain ⟨hfx, hfy, hfz⟩ := (does_it_fit_iff item_dims box_dims).mp hfit
  unfold best_fit
  cases hs : bfSide1 item_dims box_dims with
  | none => exact absurd (bfSide1_isSome item_dims box_dims hfz) (by simp [hs])
  | some t =>
    obtain ⟨s1, blocks, bx⟩ := t
    refine ⟨_, rfl, ?_⟩
    unfold bfSide1 at hs
    split_ifs at hs with h1 h2 h3 h4 h5 h6 h7 h8 h9
    all_goals
      (simp only [Option.some.injEq, Prod.mk.injEq] at hs
       obtain ⟨hA, hB, hC⟩ := hs
       subst hA; subst hB; subst hC
       simp only [bfRest, get_side_2_side_3, Dim3.set,
         fin3_zero_sub_one, fin3_zero_sub_two, fin3_one_sub_one, fin3_one_sub_two,
         fin3_two_sub_one, fin3_two_sub_two, fin3_zero_add_one, fin3_zero_add_two,
         fin3_one_add_one, fin3_one_add_two, fin3_two_add_one, fin3_two_add_two,
         get_zero, get_one, get_two]
       split_ifs)
    all_goals
      (dsimp only
       simp only [get_zero, get_one, get_two, List.cons_append, List.nil_append]
       first
       | (exfalso; linarith)
       | (refine post_glue _ (by norm_num) ?_
          intro b hmemb
          fin_cases hmemb <;>
            exact sort3_ok _ _ _ (by linarith) (by linarith) (by linarith)))

/-- C1: for sorted item and block dimension triples where the item fits the
block, the item volume plus the volumes of all blocks returned by
`best_fit` is at most (in fact exactly equal to) the original block's
volume. -/
theorem C1_best_fit_volume_conservation (item_dims box_dims : Dim3)
    (hi : sortedAsc item_dims) (hb : sortedAsc box_dims)
    (hfit : does_it_fit item_dims box_dims = true) :
    ∃ l, best_fit item_dims box_dims = some l ∧
      volume item_dims + (l.map volume).sum ≤ volume box_dims := by
  obtain ⟨hfx, hfy, hfz⟩ := (does_it_fit_iff item_dims box_dims).mp hfit
  obtain ⟨l, hl, he⟩ := best_fit_sum_eq item_dims box_dims hfz
  exact ⟨l, hl, le_of_eq he⟩

theorem C1_witness :
    (sortedAsc ⟨2, 3, 4⟩ ∧ sortedAsc ⟨5, 6, 7⟩ ∧
      does_it_fit ⟨2, 3, 4⟩ ⟨5, 6, 7⟩ = true) ∧
    (∃ l, best_fit ⟨2, 3, 4⟩ ⟨5, 6, 7⟩ = some l ∧
      volume ⟨2, 3, 4⟩ + (l.map volume).sum ≤ volume ⟨5, 6, 7⟩) :=
  ⟨⟨by decide, by decide, by decide⟩,
    C1_best_fit_volume_conservation ⟨2, 3, 4⟩ ⟨5, 6, 7⟩ (by decide) (by decide)
      (by decide)⟩

/-- C2: for sorted, positive item and block triples with the item fitting
the block, `best_fit` returns at most 3 blocks, each internally sorted
ascending with strictly positive smallest dimension (hence positive
volume), listed in ascending order of volume. -/
theorem C2_best_fit_output_shape (item_dims box_dims : Dim3)
    (hi : sortedAsc item_dims) (hb : sortedAsc box_dims)
    (hpi : 0 < item_dims.x) (hpb : 0 < box_dims.x)
    (hfit : does_it_fit item_dims box_dims = true) :
    ∃ l, best_fit item_dims box_dims = some l ∧ l.length ≤ 3 ∧
      (∀ b ∈ l, sortedAsc b ∧ 0 < b.x ∧ 0 < volume b) ∧
      l.Pairwise (fun a c => volume a ≤ volume c) :=
  best_fit_output_props item_dims box_dims hi hb hpi hpb hfit

theorem C2_witness :
    (sortedAsc ⟨2, 3, 4⟩ ∧ sortedAsc ⟨5, 6, 7⟩ ∧ (0 : ℤ) < 2 ∧ (0 : ℤ) < 5 ∧
      does_it_fit ⟨2, 3, 4⟩ ⟨5, 6, 7⟩ = true) ∧
    (∃ l, best_fit ⟨2, 3, 4⟩ ⟨5, 6, 7⟩ = some l ∧ l.length ≤ 3 ∧
      (∀ b ∈ l, sortedAsc b ∧ 0 < b.x ∧ 0 < volume b) ∧
      l.Pairwise (fun a c => volume a ≤ volume c)) :=
  ⟨⟨by decide, by decide, by decide, by decide, by decide⟩,
    C2_best_fit_output_shape ⟨2, 3, 4⟩ ⟨5, 6, 7⟩ (by decide) (by decide)
      (by decide) (by decide) (by decide)⟩

/-- C3: `best_fit([5,5,5], [10,10,10])` returns exactly the blocks
`[5,5,5]`, `[5,5,10]`, `[5,10,10]`, in that (ascending-volume) order. -/
theorem C3_best_fit_5_10 :
    best_fit ⟨5, 5, 5⟩ ⟨10, 10, 10⟩ =
      some [⟨5, 5, 5⟩, ⟨5, 5, 10⟩, ⟨5, 10, 10⟩] := by decide

/-- C8: for sorted triples, `does_it_fit(a, b)` is true exactly when every
component of `a` is at most the component of `b` of the same rank, and
`does_it_fit(a, a)` always holds. -/
theorem C8_does_it_fit_characterisation (a b : Dim3)
    (ha : sortedAsc a) (hb : sortedAsc b) :
    (does_it_fit a b = true ↔ a.x ≤ b.x ∧ a.y ≤ b.y ∧ a.z ≤ b.z) ∧
      does_it_fit a a = true := by
  refine ⟨does_it_fit_iff a b, ?_⟩
  exact (does_it_fit_iff a a).mpr ⟨le_refl _, le_refl _, le_refl _⟩

theorem bfSide1_blocks_len {item_dims box_dims : Dim3} {s1 : Fin 3}
    {blocks : List Dim3} {bx : Dim3}
    (h : bfSide1 item_dims box_dims = some (s1, blocks, bx)) :
    blocks.length ≤ 1 := by
  unfold bfSide1 at h
  split_ifs at h <;>
    (simp only [Option.some.injEq, Prod.mk.injEq] at h
     obtain ⟨hA, hB, hC⟩ := h
     subst hB
     simp)

theorem best_fit_length_le {item_dims box_dims : Dim3} {l : List Dim3}
    (h : best_fit item_dims box_dims = some l) : l.length ≤ 3 := by
  unfold best_fit at h
  cases hs : bfSide1 item_dims box_dims with
  | none => rw [hs] at h; exact Option.noConfusion h
  | some t =>
    obtain ⟨s1, blocks, bx⟩ := t
    rw [hs] at h
    simp only [Option.some.injEq] at h
    subst h
    have hb := bfSide1_blocks_len hs
    simp only [bfRest, sortByVolume_length]
    refine le_trans (List.length_filter_le _ _) ?_
    rw [List.length_append]
    split_ifs <;> (simp only [List.length_cons, List.length_nil]; omega)

theorem best_fit_isSome (item_dims box_dims : Dim3)
    (h : does_it_fit item_dims box_dims = true) :
    (best_fit item_dims box_dims).isSome := by
  obtain ⟨hx, hy, hz⟩ := (does_it_fit_iff item_dims box_dims).mp h
  unfold best_fit
  cases hs : bfSide1 item_dims box_dims with
  | none => exact absurd (bfSide1_isSome item_dims box_dims hz) (by simp [hs])
  | some t => obtain ⟨a, b, c⟩ := t; simp

theorem append_to_last_isSome (p : List (List ItemTuple)) (item : ItemTuple)
    (hp : p ≠ []) : ∃ q, append_to_last p item = some q := by
  unfold append_to_last
  cases hg : p.getLast? with
  | none => exact absurd (List.getLast?_eq_none_iff.mp hg) hp
  | some lastp => exact ⟨_, rfl⟩

theorem append_to_last_ne_nil {p q : List (List ItemTuple)} {item : ItemTuple}
    (h : append_to_last p item = some q) : q ≠ [] := by
  unfold append_to_last at h
  cases hg : p.getLast? with
  | none => rw [hg] at h; exact Option.noConfusion h
  | some lastp =>
    rw [hg] at h
    simp only [Option.some.injEq] at h
    subst h
    simp

theorem append_to_last_join {p q : List (List ItemTuple)} {item : ItemTuple}
    (h : append_to_last p item = some q) : q.flatten = p.flatten ++ [item] := by
  unfold append_to_last at h
  cases hg : p.getLast? with
  | none => rw [hg] at h; exact Option.noConfusion h
  | some lastp =>
    rw [hg] at h
    simp only [Option.some.injEq] at h
    subst h
    have hp : p.dropLast ++ [lastp] = p := by
      have hne : p ≠ [] := by
        intro he; subst he; simp at hg
      have := List.getLast?_eq_getLast p hne
      rw [hg] at this
      simp only [Option.some.injEq] at this
      rw [this]
      exact List.dropLast_append_getLast hne
    calc (p.dropLast ++ [lastp ++ [item]]).flatten
        = p.dropLast.flatten ++ (lastp ++ [item]) := by
          simp [List.flatten_append]
      _ = (p.dropLast.flatten ++ lastp) ++ [item] := by rw [List.append_assoc]
      _ = (p.dropLast ++ [lastp]).flatten ++ [item] := by simp [List.flatten_append]
      _ = p.flatten ++ [item] := by rw [hp]

/-- Effect of one `insert_items_into_dimensions` call on the lengths of the
block queue and the pending-item list, plus the facts the loop proofs
need. -/
theorem insert_bound {r : List Dim3} {c : List ItemTuple}
    {p : List (List ItemTuple)} {r' : List Dim3} {c' : List ItemTuple}
    {p' : List (List ItemTuple)} (hne : r ≠ [])
    (h : insert_items_into_dimensions r c p = some (r', c', p')) :
    r'.length + 4 * c'.length + 1 ≤ r.length + 4 * c.length ∧
    c'.length ≤ c.length ∧ (∀ it ∈ c', it ∈ c) ∧ (p ≠ [] → p' ≠ []) := by
  cases r with
  | nil => exact absurd rfl hne
  | cons block rest =>
    simp only [insert_items_into_dimensions] at h
    cases hf : c.find? (fun it => does_it_fit it.dimensions block) with
    | none =>
      rw [hf] at h
      simp only [Option.some.injEq, Prod.mk.injEq] at h
      obtain ⟨h1, h2, h3⟩ := h
      subst h1; subst h2; subst h3
      exact ⟨by simp only [List.length_cons]; omega, le_refl _,
        fun it hit => hit, fun hp => hp⟩
    | some item =>
      rw [hf] at h
      dsimp only at h
      cases hap : append_to_last p item with
      | none => rw [hap] at h; exact Option.noConfusion h
      | some packed' =>
        rw [hap] at h
        dsimp only at h
        cases hbf : best_fit item.dimensions block with
        | none => rw [hbf] at h; exact Option.noConfusion h
        | some left =>
          rw [hbf] at h
          simp only [Option.some.injEq, Prod.mk.injEq] at h
          obtain ⟨h1, h2, h3⟩ := h
          subst h1; subst h2; subst h3
          have hmem : item ∈ c := List.mem_of_find?_eq_some hf
          have hlen_c : (c.erase item).length = c.length - 1 :=
            List.length_erase_of_mem hmem
          have hc_pos : 0 < c.length :=
            List.length_pos.mpr (List.ne_nil_of_mem hmem)
          have hleft : left.length ≤ 3 := best_fit_length_le hbf
          have hfil : (left.filter
              (fun b => something_fits (c.erase item) b)).length ≤ 3 :=
            le_trans (List.length_filter_le _ _) hleft
          refine ⟨?_, ?_, ?_, ?_⟩
          · rw [List.length_append, hlen_c]
            simp only [List.length_cons]
            omega
          · rw [hlen_c]; omega
          · intro it hit; exact List.mem_of_mem_erase hit
          · intro hp; exact append_to_last_ne_nil hap

/-- `insert_items_into_dimensions` cannot raise when the block queue and
the parcel list are nonempty: the found item fits its block, so `best_fit`
succeeds. -/
theorem insert_isSome (r : List Dim3) (c : List ItemTuple)
    (p : List (List ItemTuple)) (hne : r ≠ []) (hp : p ≠ []) :
    ∃ t, insert_items_into_dimensions r c p = some t := by
  cases r with
  | nil => exact absurd rfl hne
  | cons block rest =>
    simp only [insert_items_into_dimensions]
    cases hf : c.find? (fun it => does_it_fit it.dimensions block) with
    | none => exact ⟨_, rfl⟩
    | some item =>
      have hfit : does_it_fit item.dimensions block = true := by
        simpa using List.find?_some hf
      dsimp only
      obtain ⟨q, hq⟩ := append_to_last_isSome p item hp
      rw [hq]
      dsimp only
      obtain ⟨l, hl⟩ := Option.isSome_iff_exists.mp
        (best_fit_isSome item.dimensions block hfit)
      rw [hl]
      exact ⟨_, rfl⟩

/-- Behaviour of the inner loop: the pending-item list only shrinks (to a
subset), nonempty parcel lists stay nonempty, the loop is the identity
once the index has passed the queue length, and every entered iteration
strictly decreases the measure `length + 4·pending`. -/
theorem innerLoopF_shape :
    ∀ fuel j (r : List Dim3) (c : List ItemTuple) (p : List (List ItemTuple))
      r' c' p',
      innerLoopF fuel j r c p = some (r', c', p') →
      c'.length ≤ c.length ∧ (∀ it ∈ c', it ∈ c) ∧ (p ≠ [] → p' ≠ []) ∧
        (¬ j < r.length → r' = r ∧ c' = c ∧ p' = p) ∧
        (j < r.length →
          r'.length + 4 * c'.length < r.length + 4 * c.length) := by
  intro fuel
  induction fuel with
  | zero =>
    intro j r c p r' c' p' h
    unfold innerLoopF at h
    split_ifs at h with hj
    simp only [Option.some.injEq, Prod.mk.injEq] at h
    obtain ⟨h1, h2, h3⟩ := h
    subst h1; subst h2; subst h3
    exact ⟨le_refl _, fun it hit => hit, fun hp => hp,
      fun _ => ⟨rfl, rfl, rfl⟩, fun hc => absurd hc hj⟩
  | succ fuel ih =>
    intro j r c p r' c' p' h
    unfold innerLoopF at h
    split_ifs at h with hj
    · cases hins : insert_items_into_dimensions r c p with
      | none => rw [hins] at h; exact Option.noConfusion h
      | some t =>
        obtain ⟨r1, c1, p1⟩ := t
        rw [hins] at h
        have hne : r ≠ [] := by
          intro he; subst he; simp at hj
        obtain ⟨hb1, hb2, hb3, hb4⟩ := insert_bound hne hins
        obtain ⟨ih1, ih2, ih3, ih4, ih5⟩ := ih (j + 1) r1 c1 p1 r' c' p' h
        refine ⟨le_trans ih1 hb2, fun it hit => hb3 it (ih2 it hit),
          fun hp => ih3 (hb4 hp), fun hnj => absurd hj hnj, fun _ => ?_⟩
        by_cases hj1 : j + 1 < r1.length
        · have := ih5 hj1; omega
        · obtain ⟨e1, e2, e3⟩ := ih4 hj1
          subst e1; subst e2; omega
    · simp only [Option.some.injEq, Prod.mk.injEq] at h
      obtain ⟨h1, h2, h3⟩ := h
      subst h1; subst h2; subst h3
      exact ⟨le_refl _, fun it hit => hit, fun hp => hp,
        fun _ => ⟨rfl, rfl, rfl⟩, fun hc => absurd hc hj⟩

/-- The inner loop cannot raise and cannot run out of the fuel `packLoop`
gives it: with a nonempty parcel list and fuel at least the measure, it
returns. -/
theorem innerLoopF_some :
    ∀ fuel j (r : List Dim3) (c : List ItemTuple) (p : List (List ItemTuple)),
      p ≠ [] → r.length + 4 * c.length ≤ fuel + j →
      ∃ out, innerLoopF fuel j r c p = some out := by
  intro fuel
  induction fuel with
  | zero =>
    intro j r c p hp hf
    have hj : ¬ j < r.length := by omega
    exact ⟨_, by unfold innerLoopF; rw [if_neg hj]⟩
  | succ fuel ih =>
    intro j r c p hp hf
    by_cases hj : j < r.length
    · have hne : r ≠ [] := by
        intro he; subst he; simp at hj
      obtain ⟨t, ht⟩ := insert_isSome r c p hne hp
      obtain ⟨r1, c1, p1⟩ := t
      obtain ⟨hb1, hb2, hb3, hb4⟩ := insert_bound hne ht
      obtain ⟨out, hout⟩ := ih (j + 1) r1 c1 p1 (hb4 hp) (by omega)
      refine ⟨out, ?_⟩
      unfold innerLoopF
      rw [if_pos hj, ht]
      dsimp only
      exact hout
    · exact ⟨_, by unfold innerLoopF; rw [if_neg hj]⟩

theorem packLoop_succ_nil (box : Dim3) (fuel : ℕ) (r : List Dim3)
    (p : List (List ItemTuple)) :
    packLoop box (fuel + 1) r [] p = some p := by
  unfold packLoop
  rw [if_pos rfl]

theorem packLoop_succ_eq_nilr (box : Dim3) (fuel : ℕ) (c : List ItemTuple)
    (p : List (List ItemTuple)) (hc : c ≠ []) :
    packLoop box (fuel + 1) [] c p =
      match innerLoopF (1 + 4 * c.length) 0 [box] c (p ++ [[]]) with
      | none => none
      | some (r', c', p') => packLoop box fuel r' c' p' := by
  conv_lhs => unfold packLoop
  rw [if_neg hc]
  rfl

theorem packLoop_succ_eq_consr (box : Dim3) (fuel : ℕ) (b : Dim3)
    (rs : List Dim3) (c : List ItemTuple) (p : List (List ItemTuple))
    (hc : c ≠ []) :
    packLoop box (fuel + 1) (b :: rs) c p =
      match innerLoopF ((b :: rs).length + 4 * c.length) 0 (b :: rs) c p with
      | none => none
      | some (r', c', p') => packLoop box fuel r' c' p' := by
  conv_lhs => unfold packLoop
  rw [if_neg hc]
  rfl

/-- Value stability: a terminating run keeps its value with more fuel. -/
theorem packLoop_mono (box : Dim3) :
    ∀ fuel (r : List Dim3) (c : List ItemTuple) (p : List (List ItemTuple))
      out, packLoop box fuel r c p = some out →
      packLoop box (fuel + 1) r c p = some out := by
  intro fuel
  induction fuel with
  | zero =>
    intro r c p out h
    rw [show packLoop box 0 r c p = none from rfl] at h
    exact Option.noConfusion h
  | succ fuel ih =>
    intro r c p out h
    by_cases hc : c = []
    · subst hc
      rw [packLoop_succ_nil] at h
      rw [packLoop_succ_nil]
      exact h
    · cases r with
      | nil =>
        rw [packLoop_succ_eq_nilr box fuel c p hc] at h
        rw [packLoop_succ_eq_nilr box (fuel + 1) c p hc]
        cases hin : innerLoopF (1 + 4 * c.length) 0 [box] c (p ++ [[]]) with
        | none => rw [hin] at h; dsimp only at h; exact Option.noConfusion h
        | some t =>
          obtain ⟨r', c', p'⟩ := t
          rw [hin] at h
          dsimp only at h ⊢
          exact ih r' c' p' out h
      | cons b rs =>
        rw [packLoop_succ_eq_consr box fuel b rs c p hc] at h
        rw [packLoop_succ_eq_consr box (fuel + 1) b rs c p hc]
        cases hin : innerLoopF ((b :: rs).length + 4 * c.length) 0 (b :: rs) c p with
        | none => rw [hin] at h; dsimp only at h; exact Option.noConfusion h
        | some t =>
          obtain ⟨r', c', p'⟩ := t
          rw [hin] at h
          dsimp only at h ⊢
          exact ih r' c' p' out h

theorem packLoop_mono_le (box : Dim3) {fuel fuel' : ℕ} (h : fuel ≤ fuel')
    {r : List Dim3} {c : List ItemTuple} {p : List (List ItemTuple)} {out}
    (hrun : packLoop box fuel r c p = some out) :
    packLoop box fuel' r c p = some out := by
  induction h with
  | refl => exact hrun
  | step h ih => exact packLoop_mono box _ _ _ _ _ ih

/-- When the front block is the whole box and every pending item fits the
box, the first `insert_items_into_dimensions` call places an item. -/
theorem fresh_first_insert (box : Dim3) (c : List ItemTuple)
    (p : List (List ItemTuple)) (hc : c ≠ []) (hp : p ≠ [])
    (hfit : ∀ it ∈ c, does_it_fit it.dimensions box = true) :
    ∃ r1 c1 p1, insert_items_into_dimensions [box] c p = some (r1, c1, p1) ∧
      c1.length < c.length ∧ (∀ it ∈ c1, it ∈ c) ∧ p1 ≠ [] := by
  cases c with
  | nil => exact absurd rfl hc
  | cons it rest =>
    simp only [insert_items_into_dimensions]
    have hfi : does_it_fit it.dimensions box = true := hfit it (by simp)
    simp only [List.find?, hfi]
    obtain ⟨q, hq⟩ := append_to_last_isSome p it hp
    rw [hq]
    dsimp only
    obtain ⟨l, hl⟩ := Option.isSome_iff_exists.mp
      (best_fit_isSome it.dimensions box hfi)
    rw [hl]
    dsimp only
    refine ⟨_, _, _, rfl, ?_, ?_, append_to_last_ne_nil hq⟩
    · rw [List.erase_cons_head]
      simp
    · intro x hx
      exact List.mem_of_mem_erase hx

/-- Opening a fresh box makes progress: the inner loop consumes at least
one item. -/
theorem inner_fresh (box : Dim3) (c : List ItemTuple)
    (p : List (List ItemTuple)) (hc : c ≠ [])
    (hfit : ∀ it ∈ c, does_it_fit it.dimensions box = true) :
    ∃ r' c' p', innerLoopF (1 + 4 * c.length) 0 [box] c (p ++ [[]]) =
        some (r', c', p') ∧
      c'.length < c.length ∧ (∀ it ∈ c', it ∈ c) ∧ p' ≠ [] := by
  have hp1 : p ++ [[]] ≠ ([] : List (List ItemTuple)) := by simp
  obtain ⟨r1, c1, p1, hins, hlt, hsub, hp1'⟩ :=
    fresh_first_insert box c (p ++ [[]]) hc hp1 hfit
  obtain ⟨hb1, hb2, hb3, hb4⟩ := insert_bound (List.cons_ne_nil box []) hins
  have hμ : 1 + 4 * c.length = 4 * c.length + 1 := by omega
  obtain ⟨out, hout⟩ := innerLoopF_some (4 * c.length) 1 r1 c1 p1 hp1'
    (by simp only [List.length_cons, List.length_nil] at hb1; omega)
  obtain ⟨r', c', p'⟩ := out
  obtain ⟨s1, s2, s3, s4, s5⟩ :=
    innerLoopF_shape (4 * c.length) 1 r1 c1 p1 r' c' p' hout
  refine ⟨r', c', p', ?_, lt_of_le_of_lt s1 hlt,
    fun it hit => hsub it (s2 it hit), s3 hp1'⟩
  rw [hμ]
  unfold innerLoopF
  rw [if_pos (by simp), hins]
  dsimp only
  exact hout

/-- Core of the amended termination claim: the driver's while loop
terminates whenever every pending item fits the box, by induction on the
number of pending items with an inner induction on the queue length. -/
theorem packLoop_term (box : Dim3) :
    ∀ nc, ∀ c : List ItemTuple, c.length ≤ nc →
      (∀ it ∈ c, does_it_fit it.dimensions box = true) →
      ∀ (r : List Dim3) (p : List (List ItemTuple)), (r = [] ∨ p ≠ []) →
      ∃ fuel, (packLoop box fuel r c p).isSome := by
  intro nc
  induction nc with
  | zero =>
    intro c hc hfit r p hinv
    have hcn : c = [] := List.eq_nil_of_length_eq_zero (Nat.le_zero.mp hc)
    subst hcn
    exact ⟨1, by rw [packLoop_succ_nil]; rfl⟩
  | succ nc ihc =>
    intro c hc hfit r p hinv
    by_cases hcnil : c = []
    · subst hcnil
      exact ⟨1, by rw [packLoop_succ_nil]; rfl⟩
    · have fresh : ∀ (c₂ : List ItemTuple) (p₂ : List (List ItemTuple)),
          c₂.length ≤ nc + 1 → c₂ ≠ [] →
          (∀ it ∈ c₂, does_it_fit it.dimensions box = true) →
          ∃ fuel, (packLoop box fuel [] c₂ p₂).isSome := by
        intro c₂ p₂ hc₂ hcn hfit₂
        obtain ⟨r', c', p', hin, hlt, hsub, hpne⟩ :=
          inner_fresh box c₂ p₂ hcn hfit₂
        obtain ⟨fuel', hf⟩ := ihc c' (by omega)
          (fun it hit => hfit₂ it (hsub it hit)) r' p' (Or.inr hpne)
        refine ⟨fuel' + 1, ?_⟩
        rw [packLoop_succ_eq_nilr box fuel' c₂ p₂ hcn, hin]
        exact hf
      have aux : ∀ nr, ∀ (c₂ : List ItemTuple) (r₂ : List Dim3)
          (p₂ : List (List ItemTuple)),
          c₂.length ≤ nc + 1 → c₂ ≠ [] →
          (∀ it ∈ c₂, does_it_fit it.dimensions box = true) →
          (r₂ = [] ∨ p₂ ≠ []) → r₂.length ≤ nr →
          ∃ fuel, (packLoop box fuel r₂ c₂ p₂).isSome := by
        intro nr
        induction nr with
        | zero =>
          intro c₂ r₂ p₂ hc₂ hcn hfit₂ hinv₂ hr
          have hr0 : r₂ = [] :=
            List.eq_nil_of_length_eq_zero (Nat.le_zero.mp hr)
          subst hr0
          exact fresh c₂ p₂ hc₂ hcn hfit₂
        | succ nr ihr =>
          intro c₂ r₂ p₂ hc₂ hcn hfit₂ hinv₂ hr
          cases r₂ with
          | nil => exact fresh c₂ p₂ hc₂ hcn hfit₂
          | cons b rs =>
            have hrne : (b :: rs : List Dim3) ≠ [] := List.cons_ne_nil b rs
            have hp₂ : p₂ ≠ [] := hinv₂.resolve_left hrne
            obtain ⟨out, hout⟩ := innerLoopF_some
              ((b :: rs).length + 4 * c₂.length) 0 (b :: rs) c₂ p₂ hp₂
              (by omega)
            obtain ⟨r', c', p'⟩ := out
            obtain ⟨s1, s2, s3, s4, s5⟩ := innerLoopF_shape
              ((b :: rs).length + 4 * c₂.length) 0 (b :: rs) c₂ p₂ r' c' p' hout
            have hdec := s5 (by simp)
            by_cases hcc : c'.length < c₂.length
            · obtain ⟨fuel', hf⟩ := ihc c' (by omega)
                (fun it hit => hfit₂ it (s2 it hit)) r' p' (Or.inr (s3 hp₂))
              refine ⟨fuel' + 1, ?_⟩
              rw [packLoop_succ_eq_consr box fuel' b rs c₂ p₂ hcn, hout]
              exact hf
            · have hceq : c'.length = c₂.length :=
                le_antisymm s1 (le_of_not_lt hcc)
              have hc'nil : c' ≠ [] := by
                intro he
                subst he
                simp only [List.length_nil] at hceq
                exact hcn (List.eq_nil_of_length_eq_zero hceq.symm)
              obtain ⟨fuel', hf⟩ := ihr c' r' p' (by omega) hc'nil
                (fun it hit => hfit₂ it (s2 it hit)) (Or.inr (s3 hp₂))
                (by simp only [List.length_cons] at hdec hr; omega)
              refine ⟨fuel' + 1, ?_⟩
              rw [packLoop_succ_eq_consr box fuel' b rs c₂ p₂ hcn, hout]
              exact hf
      exact aux r.length c r p hc hcnil hfit hinv (le_refl _)

/-- `pack_boxes([1,1,1], [item of dims [2,2,2]])` loops forever: every
`while` iteration opens a new empty parcel and discards the lone free
block, leaving the pending item in place. -/
theorem packLoop_diverges_aux :
    ∀ fuel (p : List (List ItemTuple)),
      packLoop ⟨1, 1, 1⟩ fuel [] [⟨"A", ⟨2, 2, 2⟩⟩] p = none := by
  intro fuel
  induction fuel with
  | zero => intro p; rfl
  | succ n ih =>
    intro p
    have hstep : packLoop ⟨1, 1, 1⟩ (n + 1) [] [⟨"A", ⟨2, 2, 2⟩⟩] p =
        packLoop ⟨1, 1, 1⟩ n [] [⟨"A", ⟨2, 2, 2⟩⟩] (p ++ [[]]) := rfl
    rw [hstep]
    exact ih (p ++ [[]])

/-- C4 counterexample: `pack_boxes` does not terminate for every box and
item list; a single item that does not fit the box diverges. -/
theorem C4_counterexample_divergence :
    PackTerminates ⟨1, 1, 1⟩ [⟨"A", ⟨2, 2, 2⟩⟩] = False := by
  refine eq_false ?_
  rintro ⟨fuel, hf⟩
  unfold pack_boxes at hf
  rw [packLoop_diverges_aux fuel []] at hf
  simp at hf

/-- C4 (amended): `pack_boxes` terminates for every box dimension triple
and every finite item list in which each item fits the box. -/
theorem C4_pack_boxes_terminates (box : Dim3) (items : List ItemTuple)
    (hfit : ∀ it ∈ items, does_it_fit it.dimensions box = true) :
    PackTerminates box items := by
  obtain ⟨fuel, h⟩ := packLoop_term box items.length items (le_refl _) hfit
    [] [] (Or.inl rfl)
  exact ⟨fuel, h⟩

theorem C4_witness :
    (∀ it ∈ [(⟨"A", ⟨1, 1, 1⟩⟩ : ItemTuple)],
      does_it_fit it.dimensions ⟨2, 2, 2⟩ = true) ∧
    PackTerminates ⟨2, 2, 2⟩ [⟨"A", ⟨1, 1, 1⟩⟩] :=
  ⟨by decide, C4_pack_boxes_terminates ⟨2, 2, 2⟩ [⟨"A", ⟨1, 1, 1⟩⟩] (by decide)⟩

theorem C8_witness :
    (sortedAsc ⟨1, 2, 3⟩ ∧ sortedAsc ⟨2, 2, 4⟩) ∧
    ((does_it_fit ⟨1, 2, 3⟩ ⟨2, 2, 4⟩ = true ↔
        (1 : ℤ) ≤ 2 ∧ (2 : ℤ) ≤ 2 ∧ (3 : ℤ) ≤ 4) ∧
      does_it_fit ⟨1, 2, 3⟩ ⟨1, 2, 3⟩ = true) :=
  ⟨⟨by decide, by decide⟩,
    C8_does_it_fit_characterisation ⟨1, 2, 3⟩ ⟨2, 2, 4⟩ (by decide) (by decide)⟩

/-- C5: packing two items of dimensions `[13,13,31]` into box `[13,13,31]`
returns exactly two box instances, each holding exactly one of the two
items — and every terminating run returns that same result. -/
theorem C5_pack_boxes_two_identical_items :
    (∃ fuel, pack_boxes fuel ⟨13, 13, 31⟩
        [⟨"Item1", ⟨13, 13, 31⟩⟩, ⟨"Item2", ⟨13, 13, 31⟩⟩] =
      some [[⟨"Item1", ⟨13, 13, 31⟩⟩], [⟨"Item2", ⟨13, 13, 31⟩⟩]]) ∧
    (∀ fuel out, pack_boxes fuel ⟨13, 13, 31⟩
        [⟨"Item1", ⟨13, 13, 31⟩⟩, ⟨"Item2", ⟨13, 13, 31⟩⟩] = some out →
      out = [[⟨"Item1", ⟨13, 13, 31⟩⟩], [⟨"Item2", ⟨13, 13, 31⟩⟩]]) := by
  have h5 : pack_boxes 5 ⟨13, 13, 31⟩
      [⟨"Item1", ⟨13, 13, 31⟩⟩, ⟨"Item2", ⟨13, 13, 31⟩⟩] =
      some [[⟨"Item1", ⟨13, 13, 31⟩⟩], [⟨"Item2", ⟨13, 13, 31⟩⟩]] := by decide
  refine ⟨⟨5, h5⟩, ?_⟩
  intro fuel out h
  unfold pack_boxes at h h5
  rcases le_total fuel 5 with hle | hle
  · have h' := packLoop_mono_le ⟨13, 13, 31⟩ hle h
    rw [h5] at h'
    exact (Option.some.injEq _ _ ▸ h').symm
  · have h' := packLoop_mono_le ⟨13, 13, 31⟩ hle h5
    rw [h] at h'
    exact Option.some.inj h'

theorem insert_join_perm {r : List Dim3} {c : List ItemTuple}
    {p : List (List ItemTuple)} {r' : List Dim3} {c' : List ItemTuple}
    {p' : List (List ItemTuple)}
    (h : insert_items_into_dimensions r c p = some (r', c', p')) :
    (p'.flatten ++ c').Perm (p.flatten ++ c) := by
  cases r with
  | nil => exact Option.noConfusion h
  | cons block rest =>
    simp only [insert_items_into_dimensions] at h
    cases hf : c.find? (fun it => does_it_fit it.dimensions block) with
    | none =>
      rw [hf] at h
      simp only [Option.some.injEq, Prod.mk.injEq] at h
      obtain ⟨h1, h2, h3⟩ := h
      subst h2; subst h3
      exact List.Perm.refl _
    | some item =>
      rw [hf] at h
      dsimp only at h
      cases hap : append_to_last p item with
      | none => rw [hap] at h; exact Option.noConfusion h
      | some packed' =>
        rw [hap] at h
        dsimp only at h
        cases hbf : best_fit item.dimensions block with
        | none => rw [hbf] at h; exact Option.noConfusion h
        | some left =>
          rw [hbf] at h
          simp only [Option.some.injEq, Prod.mk.injEq] at h
          obtain ⟨h1, h2, h3⟩ := h
          subst h1; subst h2; subst h3
          have hmem : item ∈ c := List.mem_of_find?_eq_some hf
          rw [append_to_last_join hap, List.append_assoc]
          exact List.Perm.append_left p.flatten (List.perm_cons_erase hmem).symm

theorem innerLoopF_join_perm :
    ∀ fuel j (r : List Dim3) (c : List ItemTuple) (p : List (List ItemTuple))
      r' c' p', innerLoopF fuel j r c p = some (r', c', p') →
      (p'.flatten ++ c').Perm (p.flatten ++ c) := by
  intro fuel
  induction fuel with
  | zero =>
    intro j r c p r' c' p' h
    unfold innerLoopF at h
    split_ifs at h
    simp only [Option.some.injEq, Prod.mk.injEq] at h
    obtain ⟨h1, h2, h3⟩ := h
    subst h2; subst h3
    exact List.Perm.refl _
  | succ fuel ih =>
    intro j r c p r' c' p' h
    unfold innerLoopF at h
    split_ifs at h with hj
    · cases hins : insert_items_into_dimensions r c p with
      | none => rw [hins] at h; exact Option.noConfusion h
      | some t =>
        obtain ⟨r1, c1, p1⟩ := t
        rw [hins] at h
        exact (ih (j + 1) r1 c1 p1 r' c' p' h).trans (insert_join_perm hins)
    · simp only [Option.some.injEq, Prod.mk.injEq] at h
      obtain ⟨h1, h2, h3⟩ := h
      subst h2; subst h3
      exact List.Perm.refl _

theorem packLoop_join_perm (box : Dim3) :
    ∀ fuel (r : List Dim3) (c : List ItemTuple) (p : List (List ItemTuple))
      out, packLoop box fuel r c p = some out →
      out.flatten.Perm (p.flatten ++ c) := by
  intro fuel
  induction fuel with
  | zero =>
    intro r c p out h
    rw [show packLoop box 0 r c p = none from rfl] at h
    exact Option.noConfusion h
  | succ fuel ih =>
    intro r c p out h
    by_cases hc : c = []
    · subst hc
      rw [packLoop_succ_nil] at h
      rw [List.append_nil]
      rw [Option.some.injEq] at h
      subst h
      exact List.Perm.refl _
    · have hjoin : (p ++ [[]]).flatten = p.flatten := by simp
      cases r with
      | nil =>
        rw [packLoop_succ_eq_nilr box fuel c p hc] at h
        cases hin : innerLoopF (1 + 4 * c.length) 0 [box] c (p ++ [[]]) with
        | none => rw [hin] at h; exact Option.noConfusion h
        | some t =>
          obtain ⟨r', c', p'⟩ := t
          rw [hin] at h
          dsimp only at h
          refine (ih r' c' p' out h).trans ?_
          have := innerLoopF_join_perm (1 + 4 * c.length) 0 [box] c
            (p ++ [[]]) r' c' p' hin
          rwa [hjoin] at this
      | cons b rs =>
        rw [packLoop_succ_eq_consr box fuel b rs c p hc] at h
        cases hin : innerLoopF ((b :: rs).length + 4 * c.length) 0 (b :: rs)
            c p with
        | none => rw [hin] at h; exact Option.noConfusion h
        | some t =>
          obtain ⟨r', c', p'⟩ := t
          rw [hin] at h
          dsimp only at h
          exact (ih r' c' p' out h).trans
            (innerLoopF_join_perm ((b :: rs).length + 4 * c.length) 0
              (b :: rs) c p r' c' p' hin)

/-- C10: when every item fits the box and `pack_boxes` terminates, the
concatenation of the returned parcels is a permutation (multiset equality)
of the input item list: nothing is lost or duplicated. -/
theorem C10_pack_boxes_items_preserved (fuel : ℕ) (box : Dim3)
    (items : List ItemTuple) (out : List (List ItemTuple))
    (hfit : ∀ it ∈ items, does_it_fit it.dimensions box = true)
    (h : pack_boxes fuel box items = some out) :
    out.flatten.Perm items := by
  have hp := packLoop_join_perm box fuel [] items [] out h
  simpa using hp

theorem C10_witness :
    (∀ it ∈ [(⟨"Item1", ⟨13, 13, 31⟩⟩ : ItemTuple), ⟨"Item2", ⟨13, 13, 31⟩⟩],
      does_it_fit it.dimensions ⟨13, 13, 31⟩ = true) ∧
    pack_boxes 5 ⟨13, 13, 31⟩
        [⟨"Item1", ⟨13, 13, 31⟩⟩, ⟨"Item2", ⟨13, 13, 31⟩⟩] =
      some [[⟨"Item1", ⟨13, 13, 31⟩⟩], [⟨"Item2", ⟨13, 13, 31⟩⟩]] ∧
    ([[(⟨"Item1", ⟨13, 13, 31⟩⟩ : ItemTuple)], [⟨"Item2", ⟨13, 13, 31⟩⟩]].flatten).Perm
      [⟨"Item1", ⟨13, 13, 31⟩⟩, ⟨"Item2", ⟨13, 13, 31⟩⟩] :=
  ⟨by decide, by decide,
    C10_pack_boxes_items_preserved 5 ⟨13, 13, 31⟩
      [⟨"Item1", ⟨13, 13, 31⟩⟩, ⟨"Item2", ⟨13, 13, 31⟩⟩]
      [[⟨"Item1", ⟨13, 13, 31⟩⟩], [⟨"Item2", ⟨13, 13, 31⟩⟩]]
      (by decide) (by decide)⟩

theorem handleLoop_all_infeasible (fuel : ℕ)
    (item_list items_to_pack : List ItemTuple) :
    ∀ (bl : List (String × Dim3)) best,
      (∀ b ∈ bl, can_use_box item_list b.2 = false) →
      handleLoop fuel item_list items_to_pack bl best =
        (match best with
         | none => some (none, none, .int 0)
         | some (bn, bp, bv) => some (some bn, some bp, .float bv)) := by
  intro bl
  induction bl with
  | nil => intro best _; rfl
  | cons b rest ih =>
    intro best hall
    obtain ⟨nm, dims⟩ := b
    have hfalse : can_use_box item_list dims = false := hall (nm, dims) (by simp)
    unfold handleLoop
    rw [hfalse]
    simp only [Bool.false_eq_true, if_false]
    exact ih best (fun b hb => hall b (by simp [hb]))

/-- C6: when every catalog box type fails the dominance test for some
item, `handle_order` returns the `none` sentinel as the chosen box (and no
parsed packing, and `best_total_volume` still the int `0` it was
initialised with). -/
theorem C6_handle_order_no_feasible_box (fuel : ℕ)
    (item_list : List ItemTuple) (box_list : List (String × Dim3))
    (h : ∀ b ∈ box_list, ∃ it ∈ item_list,
      does_it_fit it.dimensions b.2 = false) :
    handle_order fuel item_list box_list =
      some (none, none, PyNumber.int 0, total_item_volume item_list) := by
  have hall : ∀ b ∈ box_list, can_use_box item_list b.2 = false := by
    intro b hb
    obtain ⟨it, hit, hfalse⟩ := h b hb
    unfold can_use_box
    rw [List.all_eq_false]
    exact ⟨it, hit, by simp [hfalse]⟩
  unfold handle_order
  rw [handleLoop_all_infeasible fuel item_list (sortItemsDesc item_list)
    box_list none hall]

theorem C6_witness :
    (∀ b ∈ [("A", (⟨13, 13, 31⟩ : Dim3)), ("B", ⟨34, 34, 34⟩)],
      ∃ it ∈ [(⟨"I", ⟨40, 40, 40⟩⟩ : ItemTuple)],
        does_it_fit it.dimensions b.2 = false) ∧
    handle_order 1 [⟨"I", ⟨40, 40, 40⟩⟩]
        [("A", ⟨13, 13, 31⟩), ("B", ⟨34, 34, 34⟩)] =
      some (none, none, PyNumber.int 0,
        total_item_volume [⟨"I", ⟨40, 40, 40⟩⟩]) :=
  ⟨by decide,
    C6_handle_order_no_feasible_box 1 [⟨"I", ⟨40, 40, 40⟩⟩]
      [("A", ⟨13, 13, 31⟩), ("B", ⟨34, 34, 34⟩)] (by decide)⟩

theorem getElem_append_singleton_left {α : Type} (pre : List α) (b : α)
    (j : ℕ) (hj : j < pre.length) (hj2 : j < (pre ++ [b]).length) :
    (pre ++ [b])[j] = pre[j] :=
  List.getElem_append_left hj

theorem getElem_append_singleton_last {α : Type} (pre : List α) (b : α)
    (hlen : pre.length < (pre ++ [b]).length) :
    (pre ++ [b])[pre.length] = b := by
  rw [List.getElem_append_right (le_refl pre.length)]
  simp

/-- A terminating consumed-volume computation keeps its value with more
fuel. -/
theorem consumed_volume_mono (item_list : List ItemTuple) (b : String × Dim3)
    {f f2 : ℕ} (h : f ≤ f2) (pf : PyFloat)
    (hcv : consumed_volume f item_list b = some pf) :
    consumed_volume f2 item_list b = some pf := by
  unfold consumed_volume pack_boxes at hcv ⊢
  cases hpk : packLoop b.2 f [] (sortItemsDesc item_list) [] with
  | none => rw [hpk] at hcv; exact Option.noConfusion hcv
  | some packed =>
    rw [hpk] at hcv
    rw [packLoop_mono_le b.2 h hpk]
    exact hcv

/-- A defined consumed volume decomposes into the packing run and the
float conversions `handleLoop` performs. -/
theorem consumed_volume_eq (fuel : ℕ) (item_list : List ItemTuple)
    (b : String × Dim3) (pf : PyFloat)
    (h : consumed_volume fuel item_list b = some pf) :
    ∃ packed pv flen,
      pack_boxes fuel b.2 (sortItemsDesc item_list) = some packed ∧
      box_float_volume b.2 = some pv ∧
      float_of_int (packed.length : ℤ) = some flen ∧
      pf = flen.mul pv := by
  unfold consumed_volume at h
  cases hpk : pack_boxes fuel b.2 (sortItemsDesc item_list) with
  | none =>
    rw [hpk] at h
    exact Option.noConfusion h
  | some packed =>
    rw [hpk] at h
    dsimp only at h
    cases hbv : box_float_volume b.2 with
    | none =>
      rw [hbv] at h
      exact Option.noConfusion h
    | some pv =>
      rw [hbv] at h
      cases hfl : float_of_int (packed.length : ℤ) with
      | none =>
        rw [hfl] at h
        exact Option.noConfusion h
      | some flen =>
        rw [hfl] at h
        exact ⟨packed, pv, flen, rfl, rfl, hfl, (Option.some_inj.mp h).symm⟩

/-- Extending the prefix with an infeasible box type preserves the
invariant. -/
theorem bestInv_skip (fuel : ℕ) (item_list : List ItemTuple)
    (pre : List (String × Dim3)) (b : String × Dim3)
    (best : Option (String × List (List String) × PyFloat))
    (hinv : bestInv fuel item_list pre best)
    (hb : can_use_box item_list b.2 = false) :
    bestInv fuel item_list (pre ++ [b]) best := by
  cases best with
  | none =>
    intro b2 hb2
    rcases List.mem_append.mp hb2 with h | h
    · exact hinv b2 h
    · rw [List.mem_singleton.mp h]; exact hb
  | some t =>
    obtain ⟨bn, bp, bv⟩ := t
    obtain ⟨i, hi, vi, hfeas, hname, hbv, hcv, hmin, hfirst⟩ := hinv
    have hi2 : i < (pre ++ [b]).length := by
      rw [List.length_append]; simp; omega
    refine ⟨i, hi2, vi, ?_, ?_, hbv, ?_, ?_, ?_⟩
    · rw [getElem_append_singleton_left pre b i hi (by simp; omega)]; exact hfeas
    · rw [getElem_append_singleton_left pre b i hi (by simp; omega)]; exact hname
    · rw [getElem_append_singleton_left pre b i hi (by simp; omega)]; exact hcv
    · intro j hj hfj
      by_cases hjl : j < pre.length
      · rw [getElem_append_singleton_left pre b j hjl (by simp; omega)] at hfj ⊢
        exact hmin j hjl hfj
      · have hje : j = pre.length := by
          rw [List.length_append] at hj; simp at hj; omega
        subst hje
        rw [getElem_append_singleton_last pre b (by simp)] at hfj
        exact absurd hfj (by simp [hb])
    · intro j hj hji hfj
      have hjl : j < pre.length := by omega
      rw [getElem_append_singleton_left pre b j hjl (by simp; omega)] at hfj ⊢
      exact hfirst j hjl hji hfj

/-- A feasible box type extending an all-infeasible prefix becomes the
first minimum. -/
theorem bestInv_update_first (fuel : ℕ) (item_list : List ItemTuple)
    (pre : List (String × Dim3)) (nm : String) (dims : Dim3)
    (parsed : List (List String)) (tv : ℤ)
    (hinv : bestInv fuel item_list pre none)
    (hfeas : can_use_box item_list dims = true)
    (htv : consumed_volume fuel item_list (nm, dims) =
      some (PyFloat.finite tv)) :
    bestInv fuel item_list (pre ++ [(nm, dims)])
      (some (nm, parsed, PyFloat.finite tv)) := by
  have hplen : pre.length < (pre ++ [(nm, dims)]).length := by simp
  have hlastfeas :
      can_use_box item_list ((pre ++ [(nm, dims)])[pre.length]).2 = true := by
    rw [getElem_append_singleton_last pre (nm, dims) hplen]; exact hfeas
  refine ⟨pre.length, by simp, tv, hlastfeas, ?_, rfl, ?_, ?_, ?_⟩
  · rw [getElem_append_singleton_last pre (nm, dims) hplen]
  · rw [getElem_append_singleton_last pre (nm, dims) hplen]; exact htv
  · intro j hj hfj
    by_cases hjl : j < pre.length
    · rw [getElem_append_singleton_left pre (nm, dims) j hjl (by simp; omega)] at hfj
      exact absurd hfj (by simp [hinv _ (List.getElem_mem hjl)])
    · have hje : j = pre.length := by
        rw [List.length_append] at hj; simp at hj; omega
      subst hje
      rw [getElem_append_singleton_last pre (nm, dims) (by simp)]
      exact ⟨tv, htv, le_refl tv⟩
  · intro j hj hji hfj
    have hjl : j < pre.length := by omega
    rw [getElem_append_singleton_left pre (nm, dims) j hjl (by simp; omega)] at hfj
    exact absurd hfj (by simp [hinv _ (List.getElem_mem hjl)])

/-- A feasible box type whose float volume compares strictly below the
incumbent becomes the new first minimum. -/
theorem bestInv_update_better (fuel : ℕ) (item_list : List ItemTuple)
    (pre : List (String × Dim3)) (nm : String) (dims : Dim3)
    (parsed : List (List String)) (tv : ℤ) (bn : String)
    (bp : List (List String)) (bvv : ℤ)
    (hinv : bestInv fuel item_list pre (some (bn, bp, PyFloat.finite bvv)))
    (hfeas : can_use_box item_list dims = true)
    (htv : consumed_volume fuel item_list (nm, dims) =
      some (PyFloat.finite tv))
    (hlt : tv < bvv) :
    bestInv fuel item_list (pre ++ [(nm, dims)])
      (some (nm, parsed, PyFloat.finite tv)) := by
  obtain ⟨i, hi, vi, hfi, hname, hbv, hcv, hmin, hfirst⟩ := hinv
  injection hbv with hbv2
  have hplen : pre.length < (pre ++ [(nm, dims)]).length := by simp
  have hlastfeas :
      can_use_box item_list ((pre ++ [(nm, dims)])[pre.length]).2 = true := by
    rw [getElem_append_singleton_last pre (nm, dims) hplen]; exact hfeas
  refine ⟨pre.length, by simp, tv, hlastfeas, ?_, rfl, ?_, ?_, ?_⟩
  · rw [getElem_append_singleton_last pre (nm, dims) hplen]
  · rw [getElem_append_singleton_last pre (nm, dims) hplen]; exact htv
  · intro j hj hfj
    by_cases hjl : j < pre.length
    · rw [getElem_append_singleton_left pre (nm, dims) j hjl (by simp; omega)] at hfj ⊢
      obtain ⟨vj, hvj, hle⟩ := hmin j hjl hfj
      exact ⟨vj, hvj, by omega⟩
    · have hje : j = pre.length := by
        rw [List.length_append] at hj; simp at hj; omega
      subst hje
      rw [getElem_append_singleton_last pre (nm, dims) (by simp)]
      exact ⟨tv, htv, le_refl tv⟩
  · intro j hj hji hfj
    have hjl : j < pre.length := by omega
    rw [getElem_append_singleton_left pre (nm, dims) j hjl (by simp; omega)] at hfj ⊢
    obtain ⟨vj, hvj, hle⟩ := hmin j hjl hfj
    exact ⟨vj, hvj, by omega⟩

/-- A feasible box type that does not strictly improve leaves the
incumbent first minimum in place. -/
theorem bestInv_update_keep (fuel : ℕ) (item_list : List ItemTuple)
    (pre : List (String × Dim3)) (nm : String) (dims : Dim3) (tv : ℤ)
    (bn : String) (bp : List (List String)) (bvv : ℤ)
    (hinv : bestInv fuel item_list pre (some (bn, bp, PyFloat.finite bvv)))
    (hfeas : can_use_box item_list dims = true)
    (htv : consumed_volume fuel item_list (nm, dims) =
      some (PyFloat.finite tv))
    (hge : ¬ tv < bvv) :
    bestInv fuel item_list (pre ++ [(nm, dims)])
      (some (bn, bp, PyFloat.finite bvv)) := by
  obtain ⟨i, hi, vi, hfi, hname, hbv, hcv, hmin, hfirst⟩ := hinv
  have hbv2 : bvv = vi := by injection hbv
  have hi2 : i < (pre ++ [(nm, dims)]).length := by simp; omega
  refine ⟨i, hi2, vi, ?_, ?_, hbv, ?_, ?_, ?_⟩
  · rw [getElem_append_singleton_left pre (nm, dims) i hi (by simp; omega)]; exact hfi
  · rw [getElem_append_singleton_left pre (nm, dims) i hi (by simp; omega)]; exact hname
  · rw [getElem_append_singleton_left pre (nm, dims) i hi (by simp; omega)]; exact hcv
  · intro j hj hfj
    by_cases hjl : j < pre.length
    · rw [getElem_append_singleton_left pre (nm, dims) j hjl (by simp; omega)] at hfj ⊢
      exact hmin j hjl hfj
    · have hje : j = pre.length := by
        rw [List.length_append] at hj; simp at hj; omega
      subst hje
      rw [getElem_append_singleton_last pre (nm, dims) (by simp)]
      exact ⟨tv, htv, by omega⟩
  · intro j hj hji hfj
    have hjl : j < pre.length := by omega
    rw [getElem_append_singleton_left pre (nm, dims) j hjl (by simp; omega)] at hfj ⊢
    exact hfirst j hjl hji hfj

theorem handleLoop_argmin (fuel : ℕ) (item_list : List ItemTuple) :
    ∀ (suf pre : List (String × Dim3))
      (best : Option (String × List (List String) × PyFloat)),
      bestInv fuel item_list pre best →
      (∀ b ∈ suf, can_use_box item_list b.2 = true →
        ∃ v : ℤ, consumed_volume fuel item_list b = some (PyFloat.finite v)) →
      ∃ res, handleLoop fuel item_list (sortItemsDesc item_list) suf best =
          some res ∧
        bestInvRes fuel item_list (pre ++ suf) res := by
  intro suf
  induction suf with
  | nil =>
    intro pre best hinv hcv
    rw [List.append_nil]
    cases best with
    | none => exact ⟨(none, none, .int 0), rfl, hinv⟩
    | some t =>
      obtain ⟨bn, bp, bv⟩ := t
      obtain ⟨i, hi, vi, hfi, hname, hbv, hc, hmin, hfirst⟩ := hinv
      exact ⟨(some bn, some bp, .float bv), rfl,
        ⟨i, hi, vi, hfi, hname, by rw [hbv], hc, hmin, hfirst⟩⟩
  | cons b rest ih =>
    intro pre best hinv hcv
    obtain ⟨nm, dims⟩ := b
    have hassoc : (pre ++ [(nm, dims)]) ++ rest = pre ++ ((nm, dims) :: rest) := by
      rw [List.append_assoc]; rfl
    by_cases hfe : can_use_box item_list dims = true
    · obtain ⟨v, hv⟩ := hcv (nm, dims) (by simp) hfe
      obtain ⟨packed, pv, flen, hpk, hbvol, hflen, heq⟩ :=
        consumed_volume_eq fuel item_list (nm, dims) (PyFloat.finite v) hv
      dsimp only at hpk hbvol
      cases best with
      | none =>
        obtain ⟨res, hres, hresinv⟩ := ih (pre ++ [(nm, dims)])
          (some (nm, packed.map (fun bx => bx.map (fun t => t.item_number)),
            PyFloat.finite v))
          (bestInv_update_first fuel item_list pre nm dims
            (packed.map (fun bx => bx.map (fun t => t.item_number)))
            v hinv hfe hv)
          (fun b hb hfb => hcv b (by simp [hb]) hfb)
        refine ⟨res, ?_, ?_⟩
        · unfold handleLoop
          rw [if_pos hfe, hpk]
          dsimp only
          rw [hbvol, hflen]
          dsimp only
          rw [← heq]
          exact hres
        · rwa [hassoc] at hresinv
      | some t =>
        obtain ⟨bn, bp, bv⟩ := t
        have hinv2 := hinv
        obtain ⟨i0, hi0, vi0, hfi0, hname0, hbv0, hc0, hmin0, hfirst0⟩ := hinv2
        subst hbv0
        by_cases hlt : v < vi0
        · obtain ⟨res, hres, hresinv⟩ := ih (pre ++ [(nm, dims)])
            (some (nm, packed.map (fun bx => bx.map (fun t => t.item_number)),
              PyFloat.finite v))
            (bestInv_update_better fuel item_list pre nm dims
              (packed.map (fun bx => bx.map (fun t => t.item_number)))
              v bn bp vi0 hinv hfe hv hlt)
            (fun b hb hfb => hcv b (by simp [hb]) hfb)
          refine ⟨res, ?_, ?_⟩
          · unfold handleLoop
            rw [if_pos hfe, hpk]
            dsimp only
            rw [hbvol, hflen]
            dsimp only
            rw [← heq]
            rw [if_pos (show
              PyFloat.lt (PyFloat.finite v) (PyFloat.finite vi0) = true from
              decide_eq_true hlt)]
            exact hres
          · rwa [hassoc] at hresinv
        · obtain ⟨res, hres, hresinv⟩ := ih (pre ++ [(nm, dims)])
            (some (bn, bp, PyFloat.finite vi0))
            (bestInv_update_keep fuel item_list pre nm dims
              v bn bp vi0 hinv hfe hv hlt)
            (fun b hb hfb => hcv b (by simp [hb]) hfb)
          have hnlt : ¬ PyFloat.lt (PyFloat.finite v) (PyFloat.finite vi0) = true := by
            show ¬ decide (v < vi0) = true
            simp only [decide_eq_true_eq]
            exact hlt
          refine ⟨res, ?_, ?_⟩
          · unfold handleLoop
            rw [if_pos hfe, hpk]
            dsimp only
            rw [hbvol, hflen]
            dsimp only
            rw [← heq]
            rw [if_neg hnlt]
            exact hres
          · rwa [hassoc] at hresinv
    · obtain ⟨res, hres, hresinv⟩ := ih (pre ++ [(nm, dims)]) best
        (bestInv_skip fuel item_list pre (nm, dims) best hinv
          (Bool.eq_false_iff.mpr hfe))
        (fun b hb hfb => hcv b (by simp [hb]) hfb)
      refine ⟨res, ?_, ?_⟩
      · unfold handleLoop
        rw [if_neg hfe]
        exact hres
      · rwa [hassoc] at hresinv

/-- With a fuel at which every feasible box type's consumed volume is a
defined finite float, `handle_order` chooses a feasible box type whose
float consumed volume is minimal among all feasible box types, and among
those the first in the catalog. -/
theorem handle_order_minimal_fueled (fuel : ℕ) (item_list : List ItemTuple)
    (box_list : List (String × Dim3))
    (hfeas : ∃ b ∈ box_list, can_use_box item_list b.2 = true)
    (hcv : ∀ b ∈ box_list, can_use_box item_list b.2 = true →
      ∃ v : ℤ, consumed_volume fuel item_list b = some (PyFloat.finite v)) :
    ∃ i, ∃ hi : i < box_list.length, ∃ vi : ℤ,
      can_use_box item_list (box_list[i]).2 = true ∧
      (∃ pr, handle_order fuel item_list box_list =
        some (some (box_list[i]).1, pr, PyNumber.float (PyFloat.finite vi),
          total_item_volume item_list)) ∧
      consumed_volume fuel item_list (box_list[i]) =
        some (PyFloat.finite vi) ∧
      (∀ j, ∀ hj : j < box_list.length,
        can_use_box item_list (box_list[j]).2 = true →
        ∃ vj, consumed_volume fuel item_list (box_list[j]) =
            some (PyFloat.finite vj) ∧ vi ≤ vj) ∧
      (∀ j, ∀ hj : j < box_list.length, j < i →
        can_use_box item_list (box_list[j]).2 = true →
        ∃ vj, consumed_volume fuel item_list (box_list[j]) =
            some (PyFloat.finite vj) ∧ vi < vj) := by
  have hinv0 : bestInv fuel item_list [] none := by
    intro b hb
    exact absurd hb (List.not_mem_nil b)
  obtain ⟨res, hres, hresinv⟩ :=
    handleLoop_argmin fuel item_list box_list [] none hinv0 hcv
  obtain ⟨rb, rp, rv⟩ := res
  rw [List.nil_append] at hresinv
  cases rb with
  | none =>
    obtain ⟨b, hb, hfb⟩ := hfeas
    exact absurd hfb (by simp [hresinv b hb])
  | some bn =>
    obtain ⟨i, hi, vi, hfi, hname, hrv, hc, hmin, hfirst⟩ := hresinv
    dsimp only at hname hrv hc hmin hfirst
    subst hname
    subst hrv
    refine ⟨i, hi, vi, hfi, ⟨rp, ?_⟩, hc, hmin, hfirst⟩
    unfold handle_order
    rw [hres]

theorem insertDescZ_perm (it : ItemTuple) (l : List ItemTuple) :
    (insertDescZ it l).Perm (it :: l) := by
  induction l with
  | nil => simp [insertDescZ]
  | cons j js ih =>
    unfold insertDescZ
    split_ifs
    · exact (ih.cons j).trans (List.Perm.swap it j js)
    · exact List.Perm.refl _

theorem sortItemsDesc_perm (l : List ItemTuple) : (sortItemsDesc l).Perm l := by
  induction l with
  | nil => exact List.Perm.refl _
  | cons it rest ih =>
    exact (insertDescZ_perm it (sortItemsDesc rest)).trans (ih.cons it)

theorem pack_boxes_isSome_mono (box : Dim3) (items : List ItemTuple)
    {f f2 : ℕ} (h : f ≤ f2) (hs : (pack_boxes f box items).isSome) :
    (pack_boxes f2 box items).isSome := by
  obtain ⟨out, hout⟩ := Option.isSome_iff_exists.mp hs
  have hout2 : packLoop box f [] items [] = some out := hout
  have := packLoop_mono_le box h hout2
  simp [pack_boxes, this]

/-- Enough fuel exists for every feasible box type of a catalog at once:
feasibility means every item fits that box type, so each packing run
terminates, and the bounds combine by taking the maximum. -/
theorem feasible_fuel_bound (item_list : List ItemTuple) :
    ∀ box_list : List (String × Dim3), ∃ F, ∀ b ∈ box_list,
      can_use_box item_list b.2 = true →
      (pack_boxes F b.2 (sortItemsDesc item_list)).isSome := by
  intro bl
  induction bl with
  | nil => exact ⟨0, fun b hb => absurd hb (List.not_mem_nil b)⟩
  | cons b rest ih =>
    obtain ⟨F, hF⟩ := ih
    by_cases hb : can_use_box item_list b.2 = true
    · have hfit : ∀ it ∈ sortItemsDesc item_list,
          does_it_fit it.dimensions b.2 = true := by
        intro it hit
        have hmem : it ∈ item_list :=
          (sortItemsDesc_perm item_list).mem_iff.mp hit
        unfold can_use_box at hb
        exact List.all_eq_true.mp hb it hmem
      obtain ⟨Fb, hFb⟩ := packLoop_term b.2 (sortItemsDesc item_list).length
        (sortItemsDesc item_list) (le_refl _) hfit [] [] (Or.inl rfl)
      refine ⟨max F Fb, ?_⟩
      intro b2 hb2 hfe2
      rcases List.mem_cons.mp hb2 with rfl | h2
      · exact pack_boxes_isSome_mono b2.2 _ (le_max_right F Fb) hFb
      · exact pack_boxes_isSome_mono b2.2 _ (le_max_left F Fb) (hF b2 h2 hfe2)
    · refine ⟨F, ?_⟩
      intro b2 hb2 hfe2
      rcases List.mem_cons.mp hb2 with rfl | h2
      · exact absurd hfe2 hb
      · exact hF b2 h2 hfe2

/-- Per-box finite consumed volumes at individual fuels combine into a
single fuel for the whole catalog, by value stability and the maximum. -/
theorem finite_cv_bound (item_list : List ItemTuple) :
    ∀ box_list : List (String × Dim3),
      (∀ b ∈ box_list, can_use_box item_list b.2 = true →
        ∃ fuel, ∃ v : ℤ, consumed_volume fuel item_list b =
          some (PyFloat.finite v)) →
      ∃ F, ∀ b ∈ box_list, can_use_box item_list b.2 = true →
        ∃ v : ℤ, consumed_volume F item_list b = some (PyFloat.finite v) := by
  intro bl
  induction bl with
  | nil => exact fun _ => ⟨0, fun b hb => absurd hb (List.not_mem_nil b)⟩
  | cons b rest ih =>
    intro hall
    obtain ⟨F, hF⟩ := ih (fun b2 h2 => hall b2 (List.mem_cons_of_mem b h2))
    by_cases hb : can_use_box item_list b.2 = true
    · obtain ⟨fb, v, hv⟩ := hall b (List.mem_cons_self b rest) hb
      refine ⟨max F fb, ?_⟩
      intro b2 hb2 hfe2
      rcases List.mem_cons.mp hb2 with rfl | h2
      · exact ⟨v, consumed_volume_mono item_list b2 (le_max_right F fb) _ hv⟩
      · obtain ⟨v2, hv2⟩ := hF b2 h2 hfe2
        exact ⟨v2, consumed_volume_mono item_list b2 (le_max_left F fb) _ hv2⟩
    · refine ⟨F, ?_⟩
      intro b2 hb2 hfe2
      rcases List.mem_cons.mp hb2 with rfl | h2
      · exact absurd hfe2 hb
      · exact hF b2 h2 hfe2

set_option maxRecDepth 8000 in
/-- C7 counterexample: the claimed minimality is in exact arithmetic, but
the program computes the consumed volumes in IEEE-754 doubles.  For the
single item `[1,1,1]` and the catalog `[("B",[3,107,28059810762433]),
("A",[2,2,2251799813685248])]` both box types pack the item in one
instance; the exact consumed volumes are `2^53 + 1` for `B` and `2^53`
for `A`, but both round to the double `2^53` (ties to even), so the
float comparison `total_volume < best_total_volume` is `2^53 < 2^53`,
false, and the program keeps the first box `B` — whose exact consumed
volume is strictly larger than that of the feasible box `A`. -/
theorem C7_counterexample_float_rounding :
    can_use_box [⟨"I", ⟨1, 1, 1⟩⟩] ⟨3, 107, 28059810762433⟩ = true ∧
    can_use_box [⟨"I", ⟨1, 1, 1⟩⟩] ⟨2, 2, 2251799813685248⟩ = true ∧
    handle_order 3 [⟨"I", ⟨1, 1, 1⟩⟩]
        [("B", ⟨3, 107, 28059810762433⟩), ("A", ⟨2, 2, 2251799813685248⟩)] =
      some (some "B", some [["I"]],
        PyNumber.float (PyFloat.finite 9007199254740992), 1) ∧
    pack_boxes 3 ⟨3, 107, 28059810762433⟩
        (sortItemsDesc [⟨"I", ⟨1, 1, 1⟩⟩]) = some [[⟨"I", ⟨1, 1, 1⟩⟩]] ∧
    pack_boxes 3 ⟨2, 2, 2251799813685248⟩
        (sortItemsDesc [⟨"I", ⟨1, 1, 1⟩⟩]) = some [[⟨"I", ⟨1, 1, 1⟩⟩]] ∧
    (1 : ℤ) * volume ⟨2, 2, 2251799813685248⟩ <
      (1 : ℤ) * volume ⟨3, 107, 28059810762433⟩ := by
  decide

/-- C7 (amended): with at least one feasible box type in the catalog, and
provided every feasible box type's consumed-volume computation — performed
by the program in IEEE-754 double arithmetic — terminates for some fuel
and yields a finite float (no `OverflowError`, no infinity), there is a
fuel at which `handle_order` chooses a feasible box type whose
float-computed total consumed volume (number of box instances times the
box type's volume, rounded as binary64) is minimal among all feasible box
types; every earlier feasible catalog entry has a strictly greater float
volume, so float ties go to the first in the catalog.  (For volumes below
`2^53` the floats are exact, and this is minimality of the exact consumed
volume.) -/
theorem C7_handle_order_minimal (item_list : List ItemTuple)
    (box_list : List (String × Dim3))
    (hfeas : ∃ b ∈ box_list, can_use_box item_list b.2 = true)
    (hfin : ∀ b ∈ box_list, can_use_box item_list b.2 = true →
      ∃ fuel, ∃ v : ℤ, consumed_volume fuel item_list b =
        some (PyFloat.finite v)) :
    ∃ fuel, ∃ i, ∃ hi : i < box_list.length, ∃ vi : ℤ,
      can_use_box item_list (box_list[i]).2 = true ∧
      (∃ pr, handle_order fuel item_list box_list =
        some (some (box_list[i]).1, pr, PyNumber.float (PyFloat.finite vi),
          total_item_volume item_list)) ∧
      consumed_volume fuel item_list (box_list[i]) =
        some (PyFloat.finite vi) ∧
      (∀ j, ∀ hj : j < box_list.length,
        can_use_box item_list (box_list[j]).2 = true →
        ∃ vj, consumed_volume fuel item_list (box_list[j]) =
            some (PyFloat.finite vj) ∧ vi ≤ vj) ∧
      (∀ j, ∀ hj : j < box_list.length, j < i →
        can_use_box item_list (box_list[j]).2 = true →
        ∃ vj, consumed_volume fuel item_list (box_list[j]) =
            some (PyFloat.finite vj) ∧ vi < vj) := by
  obtain ⟨F, hF⟩ := finite_cv_bound item_list box_list hfin
  exact ⟨F, handle_order_minimal_fueled F item_list box_list hfeas hF⟩

set_option maxRecDepth 8000 in
theorem C7_witness :
    (∃ b ∈ [("A", (⟨1, 1, 2⟩ : Dim3)), ("B", ⟨1, 1, 1⟩)],
      can_use_box [⟨"I", ⟨1, 1, 1⟩⟩] b.2 = true) ∧
    (∀ b ∈ [("A", (⟨1, 1, 2⟩ : Dim3)), ("B", ⟨1, 1, 1⟩)],
      can_use_box [⟨"I", ⟨1, 1, 1⟩⟩] b.2 = true →
      ∃ fuel, ∃ v : ℤ, consumed_volume fuel [⟨"I", ⟨1, 1, 1⟩⟩] b =
        some (PyFloat.finite v)) ∧
    (∃ fuel, ∃ i,
      ∃ hi : i < ([("A", (⟨1, 1, 2⟩ : Dim3)), ("B", ⟨1, 1, 1⟩)]).length,
      ∃ vi : ℤ,
      can_use_box [⟨"I", ⟨1, 1, 1⟩⟩]
        (([("A", (⟨1, 1, 2⟩ : Dim3)), ("B", ⟨1, 1, 1⟩)])[i]).2 = true ∧
      (∃ pr, handle_order fuel [⟨"I", ⟨1, 1, 1⟩⟩]
          [("A", ⟨1, 1, 2⟩), ("B", ⟨1, 1, 1⟩)] =
        some (some (([("A", (⟨1, 1, 2⟩ : Dim3)), ("B", ⟨1, 1, 1⟩)])[i]).1, pr,
          PyNumber.float (PyFloat.finite vi),
          total_item_volume [⟨"I", ⟨1, 1, 1⟩⟩])) ∧
      consumed_volume fuel [⟨"I", ⟨1, 1, 1⟩⟩]
          (([("A", (⟨1, 1, 2⟩ : Dim3)), ("B", ⟨1, 1, 1⟩)])[i]) =
        some (PyFloat.finite vi) ∧
      (∀ j, ∀ hj : j < ([("A", (⟨1, 1, 2⟩ : Dim3)), ("B", ⟨1, 1, 1⟩)]).length,
        can_use_box [⟨"I", ⟨1, 1, 1⟩⟩]
          (([("A", (⟨1, 1, 2⟩ : Dim3)), ("B", ⟨1, 1, 1⟩)])[j]).2 = true →
        ∃ vj, consumed_volume fuel [⟨"I", ⟨1, 1, 1⟩⟩]
            (([("A", (⟨1, 1, 2⟩ : Dim3)), ("B", ⟨1, 1, 1⟩)])[j]) =
          some (PyFloat.finite vj) ∧ vi ≤ vj) ∧
      (∀ j, ∀ hj : j < ([("A", (⟨1, 1, 2⟩ : Dim3)), ("B", ⟨1, 1, 1⟩)]).length,
        j < i →
        can_use_box [⟨"I", ⟨1, 1, 1⟩⟩]
          (([("A", (⟨1, 1, 2⟩ : Dim3)), ("B", ⟨1, 1, 1⟩)])[j]).2 = true →
        ∃ vj, consumed_volume fuel [⟨"I", ⟨1, 1, 1⟩⟩]
            (([("A", (⟨1, 1, 2⟩ : Dim3)), ("B", ⟨1, 1, 1⟩)])[j]) =
          some (PyFloat.finite vj) ∧ vi < vj)) :=
  ⟨⟨("B", ⟨1, 1, 1⟩), by decide, by decide⟩,
    by
      intro b hb hfe
      rcases List.mem_cons.mp hb with rfl | hb2
      · exact ⟨3, 2, by decide⟩
      rcases List.mem_cons.mp hb2 with rfl | hb3
      · exact ⟨3, 1, by decide⟩
      · exact absurd hb3 (List.not_mem_nil b),
    C7_handle_order_minimal [⟨"I", ⟨1, 1, 1⟩⟩]
      [("A", ⟨1, 1, 2⟩), ("B", ⟨1, 1, 1⟩)]
      ⟨("B", ⟨1, 1, 1⟩), by decide, by decide⟩
      (by
        intro b hb hfe
        rcases List.mem_cons.mp hb with rfl | hb2
        · exact ⟨3, 2, by decide⟩
        rcases List.mem_cons.mp hb2 with rfl | hb3
        · exact ⟨3, 1, by decide⟩
        · exact absurd hb3 (List.not_mem_nil b))⟩

end OpShipping
